import Mathlib

/-!
# HULK runtime: `concat`

A shallow embedding of `src/runtime.c`:

    char* concat(char* s1, char* s2) {
        size_t len1 = strlen(s1);
        size_t len2 = strlen(s2);
        char* result = malloc(len1 + len2 + 1);
        if (result == NULL) return NULL;
        strcpy(result, s1);
        strcat(result, s2);
        return result;
    }

Memory is a list of allocated objects (blocks), each a list of bytes; a pointer is a
block number with an offset into it.  Every load and store is bounds-checked against the
object it addresses and yields `none` (undefined behaviour in C) when it falls outside.
The memory also carries a log of the events performed (loads, stores, allocation
requests), so that what a call reads, writes and requests can be stated.

`strlen`, `strcpy`, `strcat` and `malloc` belong to the C library, not to this
repository; they are embedded here as the byte-by-byte loops and the allocation contract
that ISO C prescribes for them.  Whether `malloc` grants a request, and what bytes a fresh
object starts with, is left to an `Allocator` that is a parameter of the call.  `size_t`
arithmetic is arithmetic modulo `2 ^ w`, where `w` is the width of `size_t` on the target.
The loops are bounded by the size of the object they scan, so every function is total.

The arguments of `concat` are non-null pointers: the code dereferences both without a
check, so a null argument has no defined behaviour to embed.
-/

namespace HulkRuntime

/-- A `char`; only the distinction between the terminator `0` and the rest matters. -/
abbrev Byte := Nat

/-- A non-null `char*`: an allocated object and a byte offset into it. -/
structure Ptr where
  blk : Nat
  off : Nat
deriving DecidableEq, Repr

/-- Pointer arithmetic `p + i`. -/
def Ptr.add (p : Ptr) (i : Nat) : Ptr := ⟨p.blk, p.off + i⟩

/-- The contents of memory: object number `k` is the `k`-th list of bytes. -/
abbrev Heap := List (List Byte)

/-- What a call does to memory, in order. -/
inductive Event where
  | read (p : Ptr)
  | write (p : Ptr) (v : Byte)
  | alloc (n : Nat) (r : Option Ptr)
deriving DecidableEq, Repr

/-- Memory state: the contents and the log of events so far. -/
structure Mem where
  heap : Heap
  log : List Event
deriving DecidableEq, Repr

/-- The byte at `p`, or `none` when `p` is outside every allocated object. -/
def Heap.get (h : Heap) (p : Ptr) : Option Byte :=
  match h[p.blk]? with
  | some b => b[p.off]?
  | none => none

/-- `*p`: a bounds-checked load, logged. -/
def Mem.load (m : Mem) (p : Ptr) : Option (Byte × Mem) :=
  match m.heap.get p with
  | some c => some (c, { m with log := m.log ++ [Event.read p] })
  | none => none

/-- `*p = v`: a bounds-checked store, logged. -/
def Mem.store (m : Mem) (p : Ptr) (v : Byte) : Option Mem :=
  match m.heap[p.blk]? with
  | some b =>
    if p.off < b.length then
      some { heap := m.heap.set p.blk (b.set p.off v), log := m.log ++ [Event.write p v] }
    else none
  | none => none

/-- Size in bytes of object `k` (`0` when there is no such object). -/
def Heap.blockSize (h : Heap) (k : Nat) : Nat :=
  match h[k]? with
  | some b => b.length
  | none => 0

/-- The loop of `strlen`: `while (s[n] != 0) n++; return n;`.  The first argument bounds
the number of iterations. -/
def strlenLoop : Nat → Mem → Ptr → Nat → Option (Nat × Mem)
  | 0, _, _, _ => none
  | fuel + 1, m, s, n =>
    match m.load (s.add n) with
    | none => none
    | some (c, m1) => if c = 0 then some (n, m1) else strlenLoop fuel m1 s (n + 1)

/-- The C library's `strlen(s)`: the number of bytes before the first terminator.  The
scan cannot outlast the object `s` points into, so its size bounds the loop. -/
def strlen (m : Mem) (s : Ptr) : Option (Nat × Mem) :=
  strlenLoop (m.heap.blockSize s.blk + 1) m s 0

/-- The loop of `strcpy`: `do { c = *s++; *d++ = c; } while (c != 0);`. -/
def strcpyLoop : Nat → Mem → Ptr → Ptr → Option Mem
  | 0, _, _, _ => none
  | fuel + 1, m, d, s =>
    match m.load s with
    | none => none
    | some (c, m1) =>
      match m1.store d c with
      | none => none
      | some m2 => if c = 0 then some m2 else strcpyLoop fuel m2 (d.add 1) (s.add 1)

/-- The C library's `strcpy(d, s)`: copies the string at `s`, terminator included, to
`d`.  The copy cannot outlast the object `s` points into. -/
def strcpy (m : Mem) (d s : Ptr) : Option Mem :=
  strcpyLoop (m.heap.blockSize s.blk + 1) m d s

/-- The C library's `strcat(d, s)`: finds the terminator of the string at `d` and copies
the string at `s` there, `strcpy(d + strlen(d), s)`. -/
def strcat (m : Mem) (d s : Ptr) : Option Mem :=
  match strlen m d with
  | none => none
  | some (n, m1) => strcpy m1 (d.add n) s

/-- The allocator as `concat` sees it: whether a request of `n` bytes is granted, and the
indeterminate bytes a fresh object starts with. -/
structure Allocator where
  grant : Nat → Bool
  fill : Nat → Byte

/-- The C library's `malloc(n)`: `NULL`, or a pointer to the start of a new object of `n`
bytes that is distinct from every existing object. -/
def malloc (al : Allocator) (m : Mem) (n : Nat) : Option Ptr × Mem :=
  if al.grant n then
    (some ⟨m.heap.length, 0⟩,
      { heap := m.heap ++ [(List.range n).map al.fill],
        log := m.log ++ [Event.alloc n (some ⟨m.heap.length, 0⟩)] })
  else
    (none, { m with log := m.log ++ [Event.alloc n none] })

/-- The `size_t` expression `len1 + len2 + 1` of `concat`, for a `size_t` of `w` bits. -/
def allocSize (w len1 len2 : Nat) : Nat := (len1 + len2 + 1) % 2 ^ w

/-- The function `concat` of `src/runtime.c`.  The outer `Option` is `none` when the call
has undefined behaviour (an access outside an object); the returned pointer is `none`
for `NULL`. -/
def concat (w : Nat) (al : Allocator) (m : Mem) (s1 s2 : Ptr) : Option (Option Ptr × Mem) :=
  match strlen m s1 with
  | none => none
  | some (len1, m1) =>
    match strlen m1 s2 with
    | none => none
    | some (len2, m2) =>
      match malloc al m2 (allocSize w len1 len2) with
      | (none, m3) => some (none, m3)
      | (some result, m3) =>
        match strcpy m3 result s1 with
        | none => none
        | some m4 =>
          match strcat m4 result s2 with
          | none => none
          | some m5 => some (some result, m5)

/-- The bytes of a list up to its first terminator, `none` when it has no terminator. -/
def takeStr : List Byte → Option (List Byte)
  | [] => none
  | c :: cs =>
    if c = 0 then some []
    else
      match takeStr cs with
      | some bs => some (c :: bs)
      | none => none

/-- The string `p` points to: the bytes from `p` up to the first terminator in its
object, `none` when `p` is not a pointer to a null-terminated sequence. -/
def Heap.cstr (h : Heap) (p : Ptr) : Option (List Byte) :=
  match h[p.blk]? with
  | some b => takeStr (b.drop p.off)
  | none => none

/-- The events of scanning `n` bytes upwards from `p`. -/
def scanEvents (p : Ptr) : Nat → List Event
  | 0 => []
  | n + 1 => Event.read p :: scanEvents (p.add 1) n

/-- The events of copying the bytes `xs` one by one from `s` to `d`. -/
def copyEvents (d s : Ptr) : List Byte → List Event
  | [] => []
  | x :: xs => Event.read s :: Event.write d x :: copyEvents (d.add 1) (s.add 1) xs

/-- The list `l` with the bytes `xs` stored from index `i` on. -/
def writeAt (l : List Byte) (i : Nat) : List Byte → List Byte
  | [] => l
  | x :: xs => writeAt (l.set i x) (i + 1) xs

/-- Copying `n` bytes one by one from `s` to `d`, as the specification words it
("copy `la` bytes from `a` into the buffer at offset 0"). -/
def copyBytes : Nat → Mem → Ptr → Ptr → Option Mem
  | 0, m, _, _ => some m
  | n + 1, m, d, s =>
    match m.load s with
    | none => none
    | some (c, m1) =>
      match m1.store d c with
      | none => none
      | some m2 => copyBytes n m2 (d.add 1) (s.add 1)

/-- The buffer-filling algorithm of the specification: copy `la` bytes from `a` into the
buffer at offset 0; copy `lb` bytes from `b` into the buffer at offset `la`; write a
terminator byte at offset `la + lb`. -/
def specFill (m : Mem) (r a b : Ptr) (la lb : Nat) : Option Mem :=
  match copyBytes la m r a with
  | none => none
  | some m1 =>
    match copyBytes lb m1 (r.add la) b with
    | none => none
    | some m2 => m2.store (r.add (la + lb)) 0

/-- The number of bytes all objects of a memory take together. -/
def Heap.total (h : Heap) : Nat := (h.map List.length).sum

/-- An allocator that grants every request and hands out objects filled with `0xAA`. -/
def okAlloc : Allocator := ⟨fun _ => true, fun _ => 170⟩

/-- An allocator that refuses every request. -/
def noAlloc : Allocator := ⟨fun _ => false, fun _ => 170⟩

/-- The bytes of "foo". -/
def foo : List Byte := [102, 111, 111]

/-- The bytes of "bar". -/
def bar : List Byte := [98, 97, 114]

/-- A memory holding "foo" in object 0 and "bar" in object 1 (with bytes after the
terminator of "bar"). -/
def mem0 : Mem := ⟨[foo ++ [0], bar ++ [0, 7, 7]], []⟩

/-- The bytes of "hello, ". -/
def hello : List Byte := [104, 101, 108, 108, 111, 44, 32]

/-- The bytes of "world!". -/
def world : List Byte := [119, 111, 114, 108, 100, 33]

/-- A memory holding "hello, " in object 0 and "world!" in object 1. -/
def mem1 : Mem := ⟨[hello ++ [0], world ++ [0]], []⟩

/-- A memory holding "foo" in object 0 and the empty string in object 1. -/
def mem2 : Mem := ⟨[foo ++ [0], [0]], []⟩

/-- A memory whose only object is `2 ^ 31` bytes of value 1 followed by a terminator: a
string of length `2 ^ 31`, in an object of `2 ^ 31 + 1` bytes. -/
def bigMem : Mem := ⟨[List.replicate (2 ^ 31) 1 ++ [0]], []⟩

/-- The memory `mem0` with a third object: an uninitialised buffer of 7 bytes. -/
def mem3 : Mem :=
  ⟨[foo ++ [0], bar ++ [0, 7, 7], [170, 170, 170, 170, 170, 170, 170]], []⟩

/-- The memory after `concat("foo", "bar")` on `mem0`, 64-bit `size_t`, with `okAlloc`. -/
def mem0After : Mem :=
  match concat 64 okAlloc mem0 ⟨0, 0⟩ ⟨1, 0⟩ with
  | some (_, m) => m
  | none => mem0

/-- The function `concat` with the iteration bound of every library loop it runs (the
two length scans, the copy of `s1`, the scan of the result by `strcat`, the copy of `s2`)
replaced by `f`. -/
def concatFuel (f w : Nat) (al : Allocator) (m : Mem) (s1 s2 : Ptr) :
    Option (Option Ptr × Mem) :=
  match strlenLoop f m s1 0 with
  | none => none
  | some (len1, m1) =>
    match strlenLoop f m1 s2 0 with
    | none => none
    | some (len2, m2) =>
      match malloc al m2 (allocSize w len1 len2) with
      | (none, m3) => some (none, m3)
      | (some result, m3) =>
        match strcpyLoop f m3 result s1 with
        | none => none
        | some m4 =>
          match strlenLoop f m4 result 0 with
          | none => none
          | some (n, m5) =>
            match strcpyLoop f m5 (result.add n) s2 with
            | none => none
            | some m6 => some (some result, m6)

/-- An allocator that grants every request and hands out objects filled with `0x01`. -/
def oneAlloc : Allocator := ⟨fun _ => true, fun _ => 1⟩

/-- A memory holding "foo", "bar" and "world!" in objects 0, 1 and 2. -/
def mem4 : Mem := ⟨[foo ++ [0], bar ++ [0], world ++ [0]], []⟩

/-- A memory holding "foo" inside object 0, between other bytes, and "foo" again at the
start of object 1, followed by other bytes. -/
def mem5 : Mem := ⟨[[9, 9] ++ foo ++ [0, 5], foo ++ [0, 1, 2, 3]], []⟩

/-- Whether an event is a request to the allocator. -/
def Event.isAlloc : Event → Bool
  | Event.alloc _ _ => true
  | _ => false

/-! ## Lemmas about the loops -/

theorem takeStr_eq_some (l bs : List Byte) :
    takeStr l = some bs ↔ ∃ tl, l = bs ++ 0 :: tl ∧ ∀ c ∈ bs, c ≠ 0 := by
  induction l generalizing bs with
  | nil => simp [takeStr]
  | cons c cs ih =>
    by_cases hc : c = 0
    · subst hc
      simp only [takeStr, if_true, Option.some.injEq]
      constructor
      · intro h
        subst h
        exact ⟨cs, by simp, by simp⟩
      · rintro ⟨tl, h1, h2⟩
        cases bs with
        | nil => rfl
        | cons b bs' =>
          simp only [List.cons_append, List.cons.injEq] at h1
          exact absurd h1.1.symm (h2 b (by simp))
    · simp only [takeStr, hc, if_false]
      cases hts : takeStr cs with
      | none =>
        constructor
        · intro h
          cases h
        rintro ⟨tl, h1, h2⟩
        cases bs with
        | nil =>
          simp only [List.nil_append, List.cons.injEq] at h1
          exact absurd h1.1 hc
        | cons b bs' =>
          simp only [List.cons_append, List.cons.injEq] at h1
          have := (ih bs').2 ⟨tl, h1.2, fun c hcm => h2 c (by simp [hcm])⟩
          rw [hts] at this
          cases this
      | some bs0 =>
        have h0 := (ih bs0).1 hts
        obtain ⟨tl0, e0, n0⟩ := h0
        simp only [Option.some.injEq]
        constructor
        · intro h
          subst h
          refine ⟨tl0, by simp [e0], ?_⟩
          intro x hx
          rcases List.mem_cons.1 hx with h | h
          · exact h ▸ hc
          · exact n0 x h
        · rintro ⟨tl, h1, h2⟩
          cases bs with
          | nil =>
            simp only [List.nil_append, List.cons.injEq] at h1
            exact absurd h1.1 hc
          | cons b bs' =>
            simp only [List.cons_append, List.cons.injEq] at h1
            have := (ih bs').2 ⟨tl, h1.2, fun c hcm => h2 c (by simp [hcm])⟩
            rw [hts] at this
            cases this
            rw [h1.1]

theorem getElem?_of_drop {l : List Byte} {n : Nat} {x : Byte} {r : List Byte}
    (h : l.drop n = x :: r) : l[n]? = some x ∧ l.drop (n + 1) = r ∧ n < l.length := by
  have hlt : n < l.length := by
    by_contra hge
    rw [List.drop_eq_nil_of_le (by omega)] at h
    cases h
  refine ⟨?_, ?_, hlt⟩
  · have := List.getElem?_drop l n 0
    rw [h] at this
    simpa using this.symm
  · have : l.drop (n + 1) = (l.drop n).drop 1 := by rw [List.drop_drop]
    rw [this, h]; rfl

theorem writeAt_length (l : List Byte) (i : Nat) (xs : List Byte) :
    (writeAt l i xs).length = l.length := by
  induction xs generalizing l i with
  | nil => rfl
  | cons x xs ih => simp [writeAt, ih]

theorem writeAt_eq (l : List Byte) (i : Nat) (xs : List Byte) (h : i + xs.length ≤ l.length) :
    writeAt l i xs = l.take i ++ xs ++ l.drop (i + xs.length) := by
  induction xs generalizing l i with
  | nil => simp [writeAt]
  | cons x xs ih =>
    simp only [List.length_cons] at h
    have hi : i < l.length := by omega
    rw [writeAt, ih (l.set i x) (i + 1) (by simp; omega)]
    have hset : l.set i x = l.take i ++ x :: l.drop (i + 1) := by
      rw [List.set_eq_take_append_cons_drop, if_pos hi]
    have hlen : (l.take i).length = i := by simp; omega
    have h1 : (l.set i x).take (i + 1) = l.take i ++ [x] := by
      rw [hset, List.take_append_eq_append_take, hlen]
      simp
    have h2 : (l.set i x).drop (i + 1 + xs.length) = l.drop (i + (xs.length + 1)) := by
      rw [hset, List.drop_append_eq_append_drop, hlen]
      rw [List.drop_eq_nil_of_le (by simp; omega)]
      simp only [List.nil_append]
      have e : i + 1 + xs.length - i = xs.length + 1 := by omega
      rw [e, List.drop_succ_cons, List.drop_drop]
      congr 1
      omega
    rw [h1, h2]
    simp

theorem scanEvents_succ (p : Ptr) (n : Nat) :
    scanEvents p (n + 1) = scanEvents p n ++ [Event.read (p.add n)] := by
  induction n generalizing p with
  | zero => simp [scanEvents, Ptr.add]
  | succ n ih =>
    rw [scanEvents, ih (p.add 1)]
    simp [scanEvents, Ptr.add, Nat.add_assoc, Nat.add_comm 1 n]

theorem strlenLoop_spec (bs : List Byte) :
    ∀ (fuel : Nat) (m : Mem) (s : Ptr) (k : Nat) (b tl : List Byte),
      m.heap[s.blk]? = some b → b.drop (s.off + k) = bs ++ 0 :: tl → (∀ c ∈ bs, c ≠ 0) →
      bs.length < fuel →
      strlenLoop fuel m s k =
        some (k + bs.length, ⟨m.heap, m.log ++ scanEvents (s.add k) (bs.length + 1)⟩) := by
  induction bs with
  | nil =>
    intro fuel m s k b tl hb hd _ hf
    obtain ⟨f, rfl⟩ : ∃ f, fuel = f + 1 := ⟨fuel - 1, by simp at hf; omega⟩
    obtain ⟨hg, -, -⟩ := getElem?_of_drop hd
    simp [strlenLoop, Mem.load, Heap.get, Ptr.add, hb, hg, scanEvents]
  | cons c cs ih =>
    intro fuel m s k b tl hb hd hnz hf
    obtain ⟨f, rfl⟩ : ∃ f, fuel = f + 1 := ⟨fuel - 1, by simp at hf; omega⟩
    obtain ⟨hg, hd2, -⟩ := getElem?_of_drop hd
    have hc : c ≠ 0 := hnz c (by simp)
    have := ih f ⟨m.heap, m.log ++ [Event.read (s.add k)]⟩ s (k + 1) b tl hb
      (by rw [← Nat.add_assoc]; exact hd2) (fun x hx => hnz x (by simp [hx]))
      (by simp at hf; omega)
    have hg2 : m.heap.get (s.add k) = some c := by simp [Heap.get, Ptr.add, hb, hg]
    simp only [strlenLoop, Mem.load, hg2, hc, if_false]
    rw [this]
    simp [scanEvents, Ptr.add, Nat.add_assoc, Nat.add_comm 1]

theorem cstr_eq_some {h : Heap} {p : Ptr} {bs : List Byte} (hs : h.cstr p = some bs) :
    ∃ b tl, h[p.blk]? = some b ∧ b.drop p.off = bs ++ 0 :: tl ∧ (∀ c ∈ bs, c ≠ 0) ∧
      p.off + bs.length + 1 ≤ b.length := by
  unfold Heap.cstr at hs
  cases hb : h[p.blk]? with
  | none => rw [hb] at hs; cases hs
  | some b =>
    rw [hb] at hs
    obtain ⟨tl, hd, hnz⟩ := (takeStr_eq_some _ _).1 hs
    refine ⟨b, tl, rfl, hd, hnz, ?_⟩
    have := congrArg List.length hd
    simp only [List.length_drop, List.length_append, List.length_cons] at this
    omega

theorem strlen_spec (m : Mem) (s : Ptr) {bs : List Byte} (hs : m.heap.cstr s = some bs) :
    strlen m s = some (bs.length, ⟨m.heap, m.log ++ scanEvents s (bs.length + 1)⟩) := by
  obtain ⟨b, tl, hb, hd, hnz, hlen⟩ := cstr_eq_some hs
  have := strlenLoop_spec bs (m.heap.blockSize s.blk + 1) m s 0 b tl hb (by simpa using hd) hnz
    (by simp [Heap.blockSize, hb]; omega)
  unfold strlen
  rw [this]
  simp [Ptr.add]

theorem strcpyLoop_spec (bs : List Byte) :
    ∀ (fuel : Nat) (m : Mem) (d s : Ptr) (sb db tl : List Byte),
      m.heap[s.blk]? = some sb → m.heap[d.blk]? = some db → d.blk ≠ s.blk →
      sb.drop s.off = bs ++ 0 :: tl → (∀ c ∈ bs, c ≠ 0) →
      d.off + bs.length + 1 ≤ db.length → bs.length < fuel →
      strcpyLoop fuel m d s =
        some ⟨m.heap.set d.blk (writeAt db d.off (bs ++ [0])),
          m.log ++ copyEvents d s (bs ++ [0])⟩ := by
  induction bs with
  | nil =>
    intro fuel m d s sb db tl hsb hdb _ hd _ hroom hf
    obtain ⟨f, rfl⟩ : ∃ f, fuel = f + 1 := ⟨fuel - 1, by simp at hf; omega⟩
    obtain ⟨hg, -, -⟩ := getElem?_of_drop hd
    have hg2 : m.heap.get s = some 0 := by simp [Heap.get, hsb, hg]
    have hlt : d.off < db.length := by simp at hroom; omega
    simp [strcpyLoop, Mem.load, Mem.store, hg2, hdb, hlt, writeAt, copyEvents]
  | cons c cs ih =>
    intro fuel m d s sb db tl hsb hdb hne hd hnz hroom hf
    obtain ⟨f, rfl⟩ : ∃ f, fuel = f + 1 := ⟨fuel - 1, by simp at hf; omega⟩
    obtain ⟨hg, hd2, -⟩ := getElem?_of_drop hd
    have hc : c ≠ 0 := hnz c (by simp)
    have hg2 : m.heap.get s = some c := by simp [Heap.get, hsb, hg]
    have hlt : d.off < db.length := by simp at hroom; omega
    have hdlt : d.blk < m.heap.length := by
      by_contra hge
      rw [List.getElem?_eq_none (by omega)] at hdb
      cases hdb
    have := ih f ⟨m.heap.set d.blk (db.set d.off c), m.log ++ [Event.read s, Event.write d c]⟩
      (d.add 1) (s.add 1) sb (db.set d.off c) tl
      (by simpa [Ptr.add, List.getElem?_set_ne hne] using hsb)
      (by simp [Ptr.add, List.getElem?_set, hdlt])
      (by simpa [Ptr.add] using hne)
      (by simpa [Ptr.add] using hd2)
      (fun x hx => hnz x (by simp [hx]))
      (by simp [Ptr.add] at hroom ⊢; omega)
      (by simp at hf; omega)
    simp only [strcpyLoop, Mem.load, Mem.store, hg2, hdb, hlt, hc, if_true, if_false,
      List.append_assoc, List.singleton_append]
    rw [this]
    simp [Ptr.add, List.set_set, writeAt, copyEvents]

theorem strcpy_spec (m : Mem) (d s : Ptr) (bs db : List Byte)
    (hs : m.heap.cstr s = some bs) (hdb : m.heap[d.blk]? = some db) (hne : d.blk ≠ s.blk)
    (hroom : d.off + bs.length + 1 ≤ db.length) :
    strcpy m d s =
      some ⟨m.heap.set d.blk (db.take d.off ++ (bs ++ [0]) ++ db.drop (d.off + bs.length + 1)),
        m.log ++ copyEvents d s (bs ++ [0])⟩ := by
  obtain ⟨sb, tl, hsb, hd, hnz, hlen⟩ := cstr_eq_some hs
  have := strcpyLoop_spec bs (m.heap.blockSize s.blk + 1) m d s sb db tl hsb hdb hne hd hnz hroom
    (by simp [Heap.blockSize, hsb]; omega)
  unfold strcpy
  rw [this, writeAt_eq _ _ _ (by simp; omega)]
  simp [Nat.add_assoc]

theorem strcat_spec (m : Mem) (d s : Ptr) (ds bs db : List Byte)
    (hd : m.heap.cstr d = some ds) (hs : m.heap.cstr s = some bs)
    (hdb : m.heap[d.blk]? = some db) (hne : d.blk ≠ s.blk)
    (hroom : d.off + ds.length + bs.length + 1 ≤ db.length) :
    strcat m d s =
      some ⟨m.heap.set d.blk (db.take (d.off + ds.length) ++ (bs ++ [0]) ++
              db.drop (d.off + ds.length + bs.length + 1)),
        m.log ++ scanEvents d (ds.length + 1) ++ copyEvents (d.add ds.length) s (bs ++ [0])⟩ := by
  unfold strcat
  rw [strlen_spec m d hd]
  have := strcpy_spec ⟨m.heap, m.log ++ scanEvents d (ds.length + 1)⟩
    (d.add ds.length) s bs db hs (by simpa [Ptr.add] using hdb)
    (by simpa [Ptr.add] using hne) (by simpa [Ptr.add] using hroom)
  simp only [this]
  simp [Ptr.add]

theorem cstr_of_block {h : Heap} {p : Ptr} {b bs : List Byte} (tl : List Byte)
    (hb : h[p.blk]? = some b) (hd : b.drop p.off = bs ++ 0 :: tl) (hnz : ∀ c ∈ bs, c ≠ 0) :
    h.cstr p = some bs := by
  unfold Heap.cstr
  rw [hb]
  exact (takeStr_eq_some _ _).2 ⟨tl, hd, hnz⟩

theorem cstr_append_block {h : Heap} {p : Ptr} {bs : List Byte} (nb : List Byte) (hs : h.cstr p = some bs) :
    (h ++ [nb]).cstr p = some bs ∧ p.blk < h.length ∧ (h ++ [nb])[p.blk]? = h[p.blk]? := by
  obtain ⟨b, tl, hb, hd, hnz, -⟩ := cstr_eq_some hs
  have hlt : p.blk < h.length := by
    by_contra hge
    rw [List.getElem?_eq_none (by omega)] at hb
    cases hb
  have hb2 : (h ++ [nb])[p.blk]? = h[p.blk]? := List.getElem?_append_left hlt
  exact ⟨cstr_of_block tl (hb2.trans hb) hd hnz, hlt, hb2⟩

theorem concat_ok {w : Nat} {al : Allocator} {m : Mem} {s1 s2 : Ptr} {as bs : List Byte}
    (h1 : m.heap.cstr s1 = some as) (h2 : m.heap.cstr s2 = some bs)
    (hfit : as.length + bs.length + 1 < 2 ^ w)
    (hg : al.grant (allocSize w as.length bs.length) = true) :
    concat w al m s1 s2 =
      some (some ⟨m.heap.length, 0⟩,
        ⟨m.heap ++ [as ++ bs ++ [0]],
          m.log ++ scanEvents s1 (as.length + 1) ++ scanEvents s2 (bs.length + 1)
            ++ [Event.alloc (as.length + bs.length + 1) (some ⟨m.heap.length, 0⟩)]
            ++ copyEvents ⟨m.heap.length, 0⟩ s1 (as ++ [0])
            ++ scanEvents ⟨m.heap.length, 0⟩ (as.length + 1)
            ++ copyEvents ⟨m.heap.length, as.length⟩ s2 (bs ++ [0])⟩) := by
  obtain ⟨-, -, -, -, hnz1, -⟩ := cstr_eq_some h1
  have hsz : allocSize w as.length bs.length = as.length + bs.length + 1 :=
    Nat.mod_eq_of_lt hfit
  rw [hsz] at hg
  -- the fresh object and the state after `malloc`
  let junk : List Byte := (List.range (as.length + bs.length + 1)).map al.fill
  have hjl : junk.length = as.length + bs.length + 1 := by simp [junk]
  obtain ⟨c1, lt1, -⟩ := cstr_append_block junk h1
  obtain ⟨c2, lt2, -⟩ := cstr_append_block junk h2
  have hnew : ∀ (x : List Byte), (m.heap ++ [x])[m.heap.length]? = some x := by
    intro x
    rw [List.getElem?_append_right (Nat.le_refl _)]
    simp
  have hset : ∀ (x y : List Byte), (m.heap ++ [x]).set m.heap.length y = m.heap ++ [y] := by
    intro x y
    rw [List.set_append_right _ _ (Nat.le_refl _)]
    simp
  -- `strcpy(result, s1)`
  let db1 : List Byte := as ++ [0] ++ junk.drop (as.length + 1)
  have hcpy : ∀ (lg : List Event),
      strcpy ⟨m.heap ++ [junk], lg⟩ ⟨m.heap.length, 0⟩ s1 =
        some ⟨m.heap ++ [db1], lg ++ copyEvents ⟨m.heap.length, 0⟩ s1 (as ++ [0])⟩ := by
    intro lg
    have := strcpy_spec ⟨m.heap ++ [junk], lg⟩ ⟨m.heap.length, 0⟩ s1 as junk c1 (hnew junk)
      (by simp; omega) (by simp [hjl])
    rw [this]
    simp [hset, db1]
  -- `strcat(result, s2)`
  have hdb1 : db1.length = as.length + bs.length + 1 := by
    simp [db1, hjl]; omega
  have c3 : (m.heap ++ [db1]).cstr ⟨m.heap.length, 0⟩ = some as :=
    cstr_of_block (junk.drop (as.length + 1)) (hnew db1) (by simp [db1]) hnz1
  obtain ⟨c4, -, -⟩ := cstr_append_block db1 h2
  have hfin : db1.take as.length ++ (bs ++ [0]) ++ db1.drop (as.length + bs.length + 1)
      = as ++ bs ++ [0] := by
    rw [List.drop_eq_nil_of_le (by omega)]
    have : db1.take as.length = as := by
      simp only [db1, List.append_assoc]
      exact List.take_left _ _
    rw [this]
    simp
  have hcat : ∀ (lg : List Event),
      strcat ⟨m.heap ++ [db1], lg⟩ ⟨m.heap.length, 0⟩ s2 =
        some ⟨m.heap ++ [as ++ bs ++ [0]],
          lg ++ scanEvents ⟨m.heap.length, 0⟩ (as.length + 1)
            ++ copyEvents ⟨m.heap.length, as.length⟩ s2 (bs ++ [0])⟩ := by
    intro lg
    have := strcat_spec ⟨m.heap ++ [db1], lg⟩ ⟨m.heap.length, 0⟩ s2 as bs db1 c3 c4 (hnew db1) (by simp; omega) (by simp [hdb1])
    rw [this]
    simp only [Nat.zero_add, hfin, hset, Ptr.add]
  unfold concat
  rw [strlen_spec m s1 h1]
  simp only
  rw [strlen_spec ⟨m.heap, m.log ++ scanEvents s1 (as.length + 1)⟩ s2 h2]
  simp only [malloc, hsz, hg, if_true]
  rw [hcpy]
  simp only
  rw [hcat]

theorem concat_null {w : Nat} {al : Allocator} {m : Mem} {s1 s2 : Ptr} {as bs : List Byte}
    (h1 : m.heap.cstr s1 = some as) (h2 : m.heap.cstr s2 = some bs)
    (hg : al.grant (allocSize w as.length bs.length) = false) :
    concat w al m s1 s2 =
      some (none,
        ⟨m.heap, m.log ++ scanEvents s1 (as.length + 1) ++ scanEvents s2 (bs.length + 1)
            ++ [Event.alloc (allocSize w as.length bs.length) none]⟩) := by
  unfold concat
  rw [strlen_spec m s1 h1]
  simp only
  rw [strlen_spec ⟨m.heap, m.log ++ scanEvents s1 (as.length + 1)⟩ s2 h2]
  simp [malloc, hg]

theorem mem_scanEvents {e : Event} {p : Ptr} {n : Nat} (h : e ∈ scanEvents p n) :
    ∃ i, i < n ∧ e = Event.read (p.add i) := by
  induction n generalizing p with
  | zero => simp [scanEvents] at h
  | succ n ih =>
    rw [scanEvents, List.mem_cons] at h
    rcases h with h | h
    · exact ⟨0, by omega, by simpa [Ptr.add] using h⟩
    · obtain ⟨i, hi, he⟩ := ih h
      exact ⟨i + 1, by omega, by simpa [Ptr.add, Nat.add_assoc, Nat.add_comm 1 i] using he⟩

theorem mem_copyEvents {e : Event} {d s : Ptr} {xs : List Byte} (h : e ∈ copyEvents d s xs) :
    ∃ i, i < xs.length ∧
      (e = Event.read (s.add i) ∨ ∃ v, xs[i]? = some v ∧ e = Event.write (d.add i) v) := by
  induction xs generalizing d s with
  | nil => simp [copyEvents] at h
  | cons x xs ih =>
    rw [copyEvents, List.mem_cons, List.mem_cons] at h
    rcases h with h | h | h
    · exact ⟨0, by simp, Or.inl (by simpa [Ptr.add] using h)⟩
    · exact ⟨0, by simp, Or.inr ⟨x, by simp, by simpa [Ptr.add] using h⟩⟩
    · obtain ⟨i, hi, he⟩ := ih h
      refine ⟨i + 1, by simp; omega, ?_⟩
      rcases he with he | ⟨v, hv, he⟩
      · exact Or.inl (by simpa [Ptr.add, Nat.add_assoc, Nat.add_comm 1 i] using he)
      · exact Or.inr ⟨v, by simpa using hv,
          by simpa [Ptr.add, Nat.add_assoc, Nat.add_comm 1 i] using he⟩

theorem copyEvents_last (d s : Ptr) (xs : List Byte) (x : Byte) :
    Event.write (d.add xs.length) x ∈ copyEvents d s (xs ++ [x]) := by
  induction xs generalizing d s with
  | nil => simp [copyEvents, Ptr.add]
  | cons y ys ih =>
    simp only [List.cons_append, copyEvents, List.mem_cons]
    right; right
    have := ih (d.add 1) (s.add 1)
    simpa [Ptr.add, Nat.add_assoc, Nat.add_comm 1] using this

theorem writeAt_append (l : List Byte) (i : Nat) (xs ys : List Byte) :
    writeAt l i (xs ++ ys) = writeAt (writeAt l i xs) (i + xs.length) ys := by
  induction xs generalizing l i with
  | nil => simp [writeAt]
  | cons x xs ih =>
    show writeAt (l.set i x) (i + 1) (xs ++ ys)
      = writeAt (writeAt (l.set i x) (i + 1) xs) (i + (xs.length + 1)) ys
    rw [ih]
    congr 1
    omega

theorem writeAt_overwrite (l : List Byte) (i : Nat) (x : Byte) (ys : List Byte) :
    writeAt (writeAt l i [x]) i (ys ++ [x]) = writeAt l i (ys ++ [x]) := by
  cases ys with
  | nil => simp [writeAt, List.set_set]
  | cons y ys => simp [writeAt, List.set_set]

theorem copyBytes_spec (xs : List Byte) :
    ∀ (m : Mem) (d s : Ptr) (sb db tl : List Byte),
      m.heap[s.blk]? = some sb → m.heap[d.blk]? = some db → d.blk ≠ s.blk →
      sb.drop s.off = xs ++ tl → d.off + xs.length ≤ db.length →
      copyBytes xs.length m d s =
        some ⟨m.heap.set d.blk (writeAt db d.off xs), m.log ++ copyEvents d s xs⟩ := by
  induction xs with
  | nil =>
    intro m d s sb db tl _ hdb _ _ _
    have : m.heap.set d.blk db = m.heap := by
      apply List.ext_getElem?
      intro k
      by_cases hk : d.blk = k
      · subst hk
        rw [List.getElem?_set, hdb]
        have hdlt : d.blk < m.heap.length := by
          by_contra hge
          rw [List.getElem?_eq_none (by omega)] at hdb
          cases hdb
        simp [hdlt]
      · rw [List.getElem?_set_ne hk]
    simp [copyBytes, writeAt, copyEvents, this]
  | cons c cs ih =>
    intro m d s sb db tl hsb hdb hne hd hroom
    obtain ⟨hg, hd2, -⟩ := getElem?_of_drop hd
    have hg2 : m.heap.get s = some c := by simp [Heap.get, hsb, hg]
    have hlt : d.off < db.length := by simp at hroom; omega
    have hdlt : d.blk < m.heap.length := by
      by_contra hge
      rw [List.getElem?_eq_none (by omega)] at hdb
      cases hdb
    have := ih ⟨m.heap.set d.blk (db.set d.off c), m.log ++ [Event.read s, Event.write d c]⟩
      (d.add 1) (s.add 1) sb (db.set d.off c) tl
      (by simpa [Ptr.add, List.getElem?_set_ne hne] using hsb)
      (by simp [Ptr.add, List.getElem?_set, hdlt])
      (by simpa [Ptr.add] using hne)
      (by simpa [Ptr.add] using hd2)
      (by simp [Ptr.add] at hroom ⊢; omega)
    simp only [List.length_cons, copyBytes, Mem.load, Mem.store, hg2, hdb, hlt, if_true,
      List.append_assoc, List.singleton_append]
    rw [this]
    simp [Ptr.add, List.set_set, writeAt, copyEvents]

theorem strcpy_spec_writeAt (m : Mem) (d s : Ptr) (bs db : List Byte)
    (hs : m.heap.cstr s = some bs) (hdb : m.heap[d.blk]? = some db) (hne : d.blk ≠ s.blk)
    (hroom : d.off + bs.length + 1 ≤ db.length) :
    strcpy m d s =
      some ⟨m.heap.set d.blk (writeAt db d.off (bs ++ [0])),
        m.log ++ copyEvents d s (bs ++ [0])⟩ := by
  obtain ⟨sb, tl, hsb, hd, hnz, hlen⟩ := cstr_eq_some hs
  exact strcpyLoop_spec bs (m.heap.blockSize s.blk + 1) m d s sb db tl hsb hdb hne hd hnz hroom
    (by simp [Heap.blockSize, hsb]; omega)

theorem lt_length_of_getElem? {h : Heap} {k : Nat} {b : List Byte} (hb : h[k]? = some b) :
    k < h.length := by
  by_contra hge
  rw [List.getElem?_eq_none (by omega)] at hb
  cases hb

theorem getElem?_set_same {h : Heap} {k : Nat} {b : List Byte} (x : List Byte)
    (hb : h[k]? = some b) : (h.set k x)[k]? = some x := by
  simp [List.getElem?_set, lt_length_of_getElem? hb]

theorem cstr_set_ne {h : Heap} {p : Ptr} {bs : List Byte} (k : Nat) (x : List Byte)
    (hs : h.cstr p = some bs) (hne : k ≠ p.blk) : Heap.cstr (h.set k x) p = some bs := by
  unfold Heap.cstr at hs ⊢
  rw [List.getElem?_set_ne hne]
  exact hs

theorem writeAt_singleton (l : List Byte) (i : Nat) (x : Byte) :
    writeAt l i [x] = l.set i x := rfl

theorem writeAt_code_eq_spec (db : List Byte) (i : Nat) (as bs : List Byte) :
    writeAt (writeAt db i (as ++ [0])) (i + as.length) (bs ++ [0])
      = (writeAt (writeAt db i as) (i + as.length) bs).set (i + as.length + bs.length) 0 := by
  rw [writeAt_append db i as [0], writeAt_overwrite, writeAt_append _ _ bs [0],
    writeAt_singleton]

theorem writeAt_code_eq (db : List Byte) (i : Nat) (as bs : List Byte) :
    writeAt (writeAt db i (as ++ [0])) (i + as.length) (bs ++ [0])
      = writeAt db i (as ++ bs ++ [0]) := by
  rw [writeAt_append db i as [0], writeAt_overwrite, List.append_assoc,
    writeAt_append db i as (bs ++ [0])]

theorem drop_writeAt (db : List Byte) (i : Nat) (xs : List Byte)
    (h : i + xs.length ≤ db.length) :
    (writeAt db i xs).drop i = xs ++ db.drop (i + xs.length) := by
  rw [writeAt_eq db i xs h, List.append_assoc]
  have hl : (db.take i).length = i := by simp; omega
  exact List.drop_left' hl

theorem strcpy_then_strcat (m : Mem) (r s1 s2 : Ptr) (as bs db : List Byte)
    (h1 : m.heap.cstr s1 = some as) (h2 : m.heap.cstr s2 = some bs)
    (hdb : m.heap[r.blk]? = some db) (hn1 : r.blk ≠ s1.blk) (hn2 : r.blk ≠ s2.blk)
    (hroom : r.off + as.length + bs.length + 1 ≤ db.length) :
    strcpy m r s1 =
        some ⟨m.heap.set r.blk (writeAt db r.off (as ++ [0])),
          m.log ++ copyEvents r s1 (as ++ [0])⟩ ∧
      Heap.cstr (m.heap.set r.blk (writeAt db r.off (as ++ [0]))) r = some as ∧
      strcat ⟨m.heap.set r.blk (writeAt db r.off (as ++ [0])),
          m.log ++ copyEvents r s1 (as ++ [0])⟩ r s2 =
        some ⟨m.heap.set r.blk (writeAt db r.off (as ++ bs ++ [0])),
          m.log ++ copyEvents r s1 (as ++ [0]) ++ scanEvents r (as.length + 1)
            ++ copyEvents (r.add as.length) s2 (bs ++ [0])⟩ := by
  obtain ⟨-, -, -, -, hnz1, -⟩ := cstr_eq_some h1
  have e1 := strcpy_spec_writeAt m r s1 as db h1 hdb hn1 (by omega)
  have hX : (m.heap.set r.blk (writeAt db r.off (as ++ [0])))[r.blk]?
      = some (writeAt db r.off (as ++ [0])) := getElem?_set_same _ hdb
  have hXl : (writeAt db r.off (as ++ [0])).length = db.length := writeAt_length _ _ _
  have c1 : Heap.cstr (m.heap.set r.blk (writeAt db r.off (as ++ [0]))) r = some as := by
    refine cstr_of_block (db.drop (r.off + (as ++ [0]).length)) hX ?_ hnz1
    rw [drop_writeAt db r.off (as ++ [0]) (by simp; omega)]
    simp
  have c2 : Heap.cstr (m.heap.set r.blk (writeAt db r.off (as ++ [0]))) s2 = some bs :=
    cstr_set_ne _ _ h2 hn2
  refine ⟨e1, c1, ?_⟩
  unfold strcat
  rw [strlen_spec ⟨m.heap.set r.blk (writeAt db r.off (as ++ [0])),
    m.log ++ copyEvents r s1 (as ++ [0])⟩ r c1]
  simp only
  rw [strcpy_spec_writeAt _ (r.add as.length) s2 bs (writeAt db r.off (as ++ [0])) c2
    (by simpa [Ptr.add] using hX) (by simpa [Ptr.add] using hn2)
    (by simp only [Ptr.add, hXl]; omega)]
  simp only [Ptr.add, List.set_set, writeAt_code_eq]

theorem length_le_total {h : Heap} {i : Nat} {a : List Byte} (ha : h[i]? = some a) :
    a.length ≤ h.total := by
  induction h generalizing i with
  | nil => simp at ha
  | cons x xs ih =>
    cases i with
    | zero =>
      simp only [List.getElem?_cons_zero, Option.some.injEq] at ha
      subst ha
      simp [Heap.total]
    | succ i =>
      simp only [List.getElem?_cons_succ] at ha
      have := ih ha
      simp only [Heap.total, List.map_cons, List.sum_cons] at this ⊢
      omega

theorem length_add_le_total {h : Heap} {i j : Nat} {a b : List Byte} (hij : i ≠ j)
    (ha : h[i]? = some a) (hb : h[j]? = some b) : a.length + b.length ≤ h.total := by
  induction h generalizing i j with
  | nil => simp at ha
  | cons x xs ih =>
    cases i with
    | zero =>
      cases j with
      | zero => exact absurd rfl hij
      | succ j =>
        simp only [List.getElem?_cons_zero, Option.some.injEq] at ha
        simp only [List.getElem?_cons_succ] at hb
        subst ha
        have := length_le_total hb
        simp only [Heap.total, List.map_cons, List.sum_cons] at this ⊢
        omega
    | succ i =>
      cases j with
      | zero =>
        simp only [List.getElem?_cons_zero, Option.some.injEq] at hb
        simp only [List.getElem?_cons_succ] at ha
        subst hb
        have := length_le_total ha
        simp only [Heap.total, List.map_cons, List.sum_cons] at this ⊢
        omega
      | succ j =>
        simp only [List.getElem?_cons_succ] at ha hb
        have := ih (fun e => hij (by rw [e])) ha hb
        simp only [Heap.total, List.map_cons, List.sum_cons] at this ⊢
        omega

/-- When the memory fits an address space of `2 ^ w` bytes and the two inputs lie in
different objects, the size `concat` needs is a `size_t` value. -/
theorem fits_of_distinct_objects {w : Nat} {h : Heap} {s1 s2 : Ptr} {as bs : List Byte}
    (ht : h.total < 2 ^ w) (h1 : h.cstr s1 = some as) (h2 : h.cstr s2 = some bs)
    (hne : s1.blk ≠ s2.blk) : as.length + bs.length + 1 < 2 ^ w := by
  obtain ⟨b1, -, hb1, -, -, hl1⟩ := cstr_eq_some h1
  obtain ⟨b2, -, hb2, -, -, hl2⟩ := cstr_eq_some h2
  have := length_add_le_total hne hb1 hb2
  omega

theorem cstr_replicate (n : Nat) :
    Heap.cstr [List.replicate n 1 ++ [0]] ⟨0, 0⟩ = some (List.replicate n 1) := by
  refine cstr_of_block [] (b := List.replicate n 1 ++ [0]) (by rfl) (by rfl) ?_
  intro c hc
  rw [List.eq_of_mem_replicate hc]
  exact Nat.one_ne_zero

theorem strcpyLoop_overrun (f : Nat) (m : Mem) (d s : Ptr) (c0 c1 : Byte) (db : List Byte)
    (hl0 : m.heap.get s = some c0) (hc0 : c0 ≠ 0) (hl1 : m.heap.get (s.add 1) = some c1)
    (hdb : m.heap[d.blk]? = some db) (hlen : db.length = d.off + 1) (hne : d.blk ≠ s.blk) :
    strcpyLoop (f + 2) m d s = none := by
  have hlt : d.off < db.length := by omega
  have hg1 : Heap.get (m.heap.set d.blk (db.set d.off c0)) (s.add 1) = some c1 := by
    simp only [Heap.get, Ptr.add] at hl1 ⊢
    rw [List.getElem?_set_ne hne]
    exact hl1
  have hd1 : (m.heap.set d.blk (db.set d.off c0))[(d.add 1).blk]? = some (db.set d.off c0) :=
    getElem?_set_same _ hdb
  have hnlt : ¬ (d.add 1).off < (db.set d.off c0).length := by
    simp only [Ptr.add, List.length_set]
    omega
  simp only [strcpyLoop, Mem.load, Mem.store, hl0, hdb, hlt, if_true, hc0, if_false, hg1, hd1,
    hnlt]

theorem concat_overrun_of_wrap (n w : Nat) (hn : 2 ≤ n) (hw : allocSize w n n = 1) :
    concat w okAlloc ⟨[List.replicate n 1 ++ [0]], []⟩ ⟨0, 0⟩ ⟨0, 0⟩ = none := by
  have hc : Heap.cstr [List.replicate n 1 ++ [0]] ⟨0, 0⟩ = some (List.replicate n 1) :=
    cstr_replicate n
  have hl : (List.replicate n 1 : List Byte).length = n := List.length_replicate _ _
  have hget : ∀ (i : Nat) (x : List Byte), i < n →
      Heap.get [List.replicate n 1 ++ [0], x] ⟨0, i⟩ = some 1 := by
    intro i x hi
    show (List.replicate n 1 ++ [0])[i]? = some 1
    rw [List.getElem?_append_left (by rw [hl]; exact hi), List.getElem?_replicate, if_pos hi]
  have hbs : Heap.blockSize [List.replicate n 1 ++ [0], [okAlloc.fill 0]] 0 = n - 1 + 2 := by
    show (List.replicate n 1 ++ [0]).length = n - 1 + 2
    rw [List.length_append, hl, List.length_singleton]
    omega
  have hov : ∀ (lg : List Event),
      strcpy ⟨[List.replicate n 1 ++ [0], [okAlloc.fill 0]], lg⟩ ⟨1, 0⟩ ⟨0, 0⟩ = none := by
    intro lg
    unfold strcpy
    show strcpyLoop (Heap.blockSize [List.replicate n 1 ++ [0], [okAlloc.fill 0]] 0 + 1)
      _ _ _ = none
    rw [hbs]
    exact strcpyLoop_overrun (n - 1 + 1) _ ⟨1, 0⟩ ⟨0, 0⟩ 1 1 [okAlloc.fill 0]
      (hget 0 _ (by omega)) (by decide) (hget 1 _ (by omega)) rfl rfl (by decide)
  unfold concat
  rw [strlen_spec ⟨[List.replicate n 1 ++ [0]], []⟩ ⟨0, 0⟩ hc]
  simp only
  rw [strlen_spec ⟨[List.replicate n 1 ++ [0]],
    [] ++ scanEvents ⟨0, 0⟩ ((List.replicate n 1 : List Byte).length + 1)⟩ ⟨0, 0⟩ hc]
  simp only [hl, hw, malloc]
  have hheap : [List.replicate n 1 ++ [0]] ++ [List.map okAlloc.fill (List.range 1)]
      = [List.replicate n 1 ++ [0], [okAlloc.fill 0]] := rfl
  simp only [show okAlloc.grant 1 = true from rfl, if_true, List.length_singleton, hheap, hov]

/-- With a 32-bit `size_t`, `concat(s, s)` on a string of `2 ^ 31` bytes has undefined
behaviour when the allocator grants the one byte the call asks for: the copy runs past
the end of the buffer. -/
theorem concat_overrun : concat 32 okAlloc bigMem ⟨0, 0⟩ ⟨0, 0⟩ = none :=
  concat_overrun_of_wrap (2 ^ 31) 32 (by norm_num) (by decide)

/-- The same overrun on a toy target with a 3-bit `size_t`, by evaluation: the string
has 4 bytes, the request is for `(4 + 4 + 1) mod 8 = 1` byte. -/
theorem concat_overrun_small :
    concat 3 okAlloc ⟨[[1, 1, 1, 1, 0]], []⟩ ⟨0, 0⟩ ⟨0, 0⟩ = none := by
  decide

/-! ## The claims -/

/-- C1, as stated, fails.  With a 32-bit `size_t`, let `s` be a string of `2 ^ 31` bytes.
Both arguments of `concat(s, s)` are null-terminated and the allocator grants what the
call asks for, yet the call returns no buffer holding the bytes of `s` twice and a
terminator: the request was for one byte and the copy runs past the end of it. -/
theorem concat_content_wrap_fails :
    bigMem.heap.cstr ⟨0, 0⟩ = some (List.replicate (2 ^ 31) 1) ∧
    okAlloc.grant (allocSize 32 (2 ^ 31) (2 ^ 31)) = true ∧
    ¬ ∃ r m', concat 32 okAlloc bigMem ⟨0, 0⟩ ⟨0, 0⟩ = some (some r, m') ∧ r.off = 0 ∧
      m'.heap[r.blk]? =
        some (List.replicate (2 ^ 31) 1 ++ List.replicate (2 ^ 31) 1 ++ [0]) := by
  refine ⟨cstr_replicate (2 ^ 31), rfl, ?_⟩
  rintro ⟨r, m', h, -⟩
  rw [concat_overrun] at h
  cases h

/-- C1, amended: for null-terminated inputs with contents `as` and `bs`, when the allocation is
granted (and the size `as.length + bs.length + 1` is a `size_t` value), `concat` returns
a pointer to the start of an object that holds exactly the bytes of `as`, then exactly the
bytes of `bs`, then one terminator. -/
theorem concat_content (w : Nat) (al : Allocator) (m : Mem) (s1 s2 : Ptr) (as bs : List Byte)
    (h1 : m.heap.cstr s1 = some as) (h2 : m.heap.cstr s2 = some bs)
    (hfit : as.length + bs.length + 1 < 2 ^ w)
    (hg : al.grant (allocSize w as.length bs.length) = true) :
    ∃ r m', concat w al m s1 s2 = some (some r, m') ∧ r.off = 0 ∧
      m'.heap[r.blk]? = some (as ++ bs ++ [0]) := by
  refine ⟨⟨m.heap.length, 0⟩, _, concat_ok h1 h2 hfit hg, rfl, ?_⟩
  show (m.heap ++ [as ++ bs ++ [0]])[m.heap.length]? = some (as ++ bs ++ [0])
  rw [List.getElem?_append_right (Nat.le_refl _)]
  simp

/-- C1 at the examples of the specification: `concat("foo", "bar")` is "foobar" and
`concat("hello, ", "world!")` is "hello, world!". -/
theorem concat_content_witness :
    (mem0.heap.cstr ⟨0, 0⟩ = some foo ∧ mem0.heap.cstr ⟨1, 0⟩ = some bar ∧
      (∃ r m', concat 64 okAlloc mem0 ⟨0, 0⟩ ⟨1, 0⟩ = some (some r, m') ∧ r.off = 0 ∧
        m'.heap[r.blk]? = some [102, 111, 111, 98, 97, 114, 0])) ∧
    (mem1.heap.cstr ⟨0, 0⟩ = some hello ∧ mem1.heap.cstr ⟨1, 0⟩ = some world ∧
      (∃ r m', concat 64 okAlloc mem1 ⟨0, 0⟩ ⟨1, 0⟩ = some (some r, m') ∧ r.off = 0 ∧
        m'.heap[r.blk]? =
          some [104, 101, 108, 108, 111, 44, 32, 119, 111, 114, 108, 100, 33, 0])) :=
  ⟨⟨by decide, by decide,
      concat_content 64 okAlloc mem0 ⟨0, 0⟩ ⟨1, 0⟩ foo bar (by decide) (by decide) (by decide)
        (by decide)⟩,
    ⟨by decide, by decide,
      concat_content 64 okAlloc mem1 ⟨0, 0⟩ ⟨1, 0⟩ hello world (by decide) (by decide)
        (by decide) (by decide)⟩⟩

/-- C2, as stated, fails.  With a 32-bit `size_t` and `s` a string of `2 ^ 31` bytes,
`concat(s, s)` with the request granted returns no result whose length is
`2 ^ 31 + 2 ^ 31`. -/
theorem concat_length_wrap_fails :
    bigMem.heap.cstr ⟨0, 0⟩ = some (List.replicate (2 ^ 31) 1) ∧
    okAlloc.grant (allocSize 32 (2 ^ 31) (2 ^ 31)) = true ∧
    ¬ ∃ r m', concat 32 okAlloc bigMem ⟨0, 0⟩ ⟨0, 0⟩ = some (some r, m') ∧
      ∃ m'', strlen m' r = some (2 ^ 31 + 2 ^ 31, m'') := by
  refine ⟨cstr_replicate (2 ^ 31), rfl, ?_⟩
  rintro ⟨r, m', h, -⟩
  rw [concat_overrun] at h
  cases h

/-- C2, amended: under the same conditions as C1 (inputs that read as `as` and `bs`,
the request granted, `as.length + bs.length + 1` a `size_t` value), scanning the result to its first terminator gives
`as.length + bs.length`: `strlen` of the result is that number, the byte at that offset is
the terminator, and no byte at a smaller offset is. -/
theorem concat_length (w : Nat) (al : Allocator) (m : Mem) (s1 s2 : Ptr) (as bs : List Byte)
    (h1 : m.heap.cstr s1 = some as) (h2 : m.heap.cstr s2 = some bs)
    (hfit : as.length + bs.length + 1 < 2 ^ w)
    (hg : al.grant (allocSize w as.length bs.length) = true) :
    ∃ r m', concat w al m s1 s2 = some (some r, m') ∧
      (∃ m'', strlen m' r = some (as.length + bs.length, m'')) ∧
      m'.heap.get (r.add (as.length + bs.length)) = some 0 ∧
      ∀ i, i < as.length + bs.length → ∃ c, m'.heap.get (r.add i) = some c ∧ c ≠ 0 := by
  obtain ⟨-, -, -, -, hnz1, -⟩ := cstr_eq_some h1
  obtain ⟨-, -, -, -, hnz2, -⟩ := cstr_eq_some h2
  have hnew : (m.heap ++ [as ++ bs ++ [0]])[m.heap.length]? = some (as ++ bs ++ [0]) := by
    rw [List.getElem?_append_right (Nat.le_refl _)]
    simp
  have hnz : ∀ c ∈ as ++ bs, c ≠ 0 := by
    intro c hc
    rcases List.mem_append.1 hc with h | h
    · exact hnz1 c h
    · exact hnz2 c h
  have hc : (m.heap ++ [as ++ bs ++ [0]]).cstr ⟨m.heap.length, 0⟩ = some (as ++ bs) :=
    cstr_of_block [] hnew (by simp) hnz
  obtain ⟨lg, hk⟩ : ∃ lg, concat w al m s1 s2 =
      some (some ⟨m.heap.length, 0⟩, ⟨m.heap ++ [as ++ bs ++ [0]], lg⟩) :=
    ⟨_, concat_ok h1 h2 hfit hg⟩
  refine ⟨⟨m.heap.length, 0⟩, _, hk, ?_, ?_, ?_⟩
  · have hs := strlen_spec ⟨m.heap ++ [as ++ bs ++ [0]], lg⟩ ⟨m.heap.length, 0⟩ hc
    rw [List.length_append] at hs
    exact ⟨_, hs⟩
  · simp only [Heap.get, Ptr.add, hnew, Nat.zero_add]
    rw [List.getElem?_append_right (by simp)]
    simp
  · intro i hi
    simp only [Heap.get, Ptr.add, hnew, Nat.zero_add]
    have hi2 : i < (as ++ bs).length := by simpa using hi
    refine ⟨(as ++ bs)[i], ?_, hnz _ (List.getElem_mem _)⟩
    rw [List.getElem?_append_left hi2]
    exact List.getElem?_eq_getElem hi2

/-- C2 at `concat("foo", "bar")`: the result has length 6. -/
theorem concat_length_witness :
    mem0.heap.cstr ⟨0, 0⟩ = some foo ∧ mem0.heap.cstr ⟨1, 0⟩ = some bar ∧
      ∃ r m', concat 64 okAlloc mem0 ⟨0, 0⟩ ⟨1, 0⟩ = some (some r, m') ∧
        (∃ m'', strlen m' r = some (6, m'')) ∧
        m'.heap.get (r.add 6) = some 0 ∧
        ∀ i, i < 6 → ∃ c, m'.heap.get (r.add i) = some c ∧ c ≠ 0 :=
  ⟨by decide, by decide,
    concat_length 64 okAlloc mem0 ⟨0, 0⟩ ⟨1, 0⟩ foo bar (by decide) (by decide) (by decide)
      (by decide)⟩

/-- C3: the empty string is a two-sided identity for `concat` up to content.  On a memory
whose objects have sizes that fit a `size_t`, for a string `s` with content `as` and an
empty string `e`, when the allocation is granted, `concat(s, e)` and `concat(e, s)` both
return a pointer into a new object whose string is again `as`. -/
theorem concat_empty_identity (w : Nat) (al : Allocator) (m : Mem) (s e : Ptr)
    (as : List Byte) (hsz : ∀ b ∈ m.heap, b.length < 2 ^ w)
    (h1 : m.heap.cstr s = some as) (he : m.heap.cstr e = some [])
    (hg : al.grant (allocSize w as.length 0) = true) :
    (∃ r m', concat w al m s e = some (some r, m') ∧ r.blk ≠ s.blk ∧
      m'.heap.cstr r = some as ∧ m'.heap.cstr s = some as) ∧
    (∃ r m', concat w al m e s = some (some r, m') ∧ r.blk ≠ s.blk ∧
      m'.heap.cstr r = some as ∧ m'.heap.cstr s = some as) := by
  obtain ⟨b, -, hb, -, hnz, hlen⟩ := cstr_eq_some h1
  have hbm : b ∈ m.heap := List.getElem?_mem hb
  have hfit : as.length + 1 < 2 ^ w := by
    have := hsz b hbm
    omega
  have hnew : ∀ (x : List Byte), (m.heap ++ [x])[m.heap.length]? = some x := by
    intro x
    rw [List.getElem?_append_right (Nat.le_refl _)]
    simp
  have hc : (m.heap ++ [as ++ [0]]).cstr ⟨m.heap.length, 0⟩ = some as :=
    cstr_of_block [] (hnew _) (by simp) hnz
  obtain ⟨hs', hlt, -⟩ := cstr_append_block (as ++ [0]) h1
  have hne : m.heap.length ≠ s.blk := by omega
  constructor
  · have hk := concat_ok h1 he (by simpa using hfit) hg
    simp only [List.append_nil] at hk
    exact ⟨⟨m.heap.length, 0⟩, _, hk, hne, hc, hs'⟩
  · have hg' : al.grant (allocSize w ([] : List Byte).length as.length) = true := by
      have : allocSize w ([] : List Byte).length as.length = allocSize w as.length 0 := by
        simp [allocSize]
      rw [this]
      exact hg
    have hk := concat_ok he h1 (by simpa using hfit) hg'
    simp only [List.nil_append] at hk
    exact ⟨⟨m.heap.length, 0⟩, _, hk, hne, hc, hs'⟩

/-- C3 at `concat("foo", "")`, `concat("", "foo")` and `concat("", "")`: the results are
"foo", "foo" and the empty string. -/
theorem concat_empty_identity_witness :
    ((∀ b ∈ mem2.heap, b.length < 2 ^ 64) ∧ mem2.heap.cstr ⟨0, 0⟩ = some foo ∧
      mem2.heap.cstr ⟨1, 0⟩ = some []) ∧
    ((∃ r m', concat 64 okAlloc mem2 ⟨0, 0⟩ ⟨1, 0⟩ = some (some r, m') ∧ r.blk ≠ 0 ∧
        m'.heap.cstr r = some foo ∧ m'.heap.cstr ⟨0, 0⟩ = some foo) ∧
      (∃ r m', concat 64 okAlloc mem2 ⟨1, 0⟩ ⟨0, 0⟩ = some (some r, m') ∧ r.blk ≠ 0 ∧
        m'.heap.cstr r = some foo ∧ m'.heap.cstr ⟨0, 0⟩ = some foo)) ∧
    ((∃ r m', concat 64 okAlloc mem2 ⟨1, 0⟩ ⟨1, 0⟩ = some (some r, m') ∧ r.blk ≠ 1 ∧
        m'.heap.cstr r = some [] ∧ m'.heap.cstr ⟨1, 0⟩ = some []) ∧
      (∃ r m', concat 64 okAlloc mem2 ⟨1, 0⟩ ⟨1, 0⟩ = some (some r, m') ∧ r.blk ≠ 1 ∧
        m'.heap.cstr r = some [] ∧ m'.heap.cstr ⟨1, 0⟩ = some [])) :=
  ⟨⟨by decide, by decide, by decide⟩,
    concat_empty_identity 64 okAlloc mem2 ⟨0, 0⟩ ⟨1, 0⟩ foo (by decide) (by decide)
      (by decide) (by decide),
    concat_empty_identity 64 okAlloc mem2 ⟨1, 0⟩ ⟨1, 0⟩ [] (by decide) (by decide)
      (by decide) (by decide)⟩

/-- C4, as stated, fails.  With a 32-bit `size_t` and `s` a string of `2 ^ 31` bytes, the
inputs of `concat(s, s)` are valid and the allocator grants the request, yet the call
yields neither `NULL` nor the allocated buffer: it has undefined behaviour, a failure
whose cause is not the allocator. -/
theorem concat_null_iff_wrap_fails :
    bigMem.heap.cstr ⟨0, 0⟩ = some (List.replicate (2 ^ 31) 1) ∧
    okAlloc.grant (allocSize 32 (2 ^ 31) (2 ^ 31)) = true ∧
    concat 32 okAlloc bigMem ⟨0, 0⟩ ⟨0, 0⟩ = none ∧
    ¬ ∃ res m', concat 32 okAlloc bigMem ⟨0, 0⟩ ⟨0, 0⟩ = some (res, m') ∧
      (res = none ↔ okAlloc.grant (allocSize 32 (2 ^ 31) (2 ^ 31)) = false) := by
  refine ⟨cstr_replicate (2 ^ 31), rfl, concat_overrun, ?_⟩
  rintro ⟨res, m', h, -⟩
  rw [concat_overrun] at h
  cases h

/-- C4, amended: for valid null-terminated inputs (whose combined size is a `size_t` value)
`concat` always returns, and it returns `NULL` exactly when the allocator refuses the
request; when the allocator grants it, the pointer returned is the non-null pointer
`malloc` handed out, to a new object of the requested size. -/
theorem concat_null_iff_alloc_fails (w : Nat) (al : Allocator) (m : Mem) (s1 s2 : Ptr)
    (as bs : List Byte)
    (h1 : m.heap.cstr s1 = some as) (h2 : m.heap.cstr s2 = some bs)
    (hfit : as.length + bs.length + 1 < 2 ^ w) :
    ∃ res m', concat w al m s1 s2 = some (res, m') ∧
      (res = none ↔ al.grant (allocSize w as.length bs.length) = false) ∧
      (al.grant (allocSize w as.length bs.length) = true →
        ∃ r, res = some r ∧ m.heap[r.blk]? = none ∧
          m'.heap.blockSize r.blk = allocSize w as.length bs.length ∧
          Event.alloc (allocSize w as.length bs.length) (some r) ∈ m'.log) := by
  cases hg : al.grant (allocSize w as.length bs.length) with
  | false =>
    exact ⟨none, _, concat_null h1 h2 hg, by simp, by simp⟩
  | true =>
    have hsz : allocSize w as.length bs.length = as.length + bs.length + 1 :=
      Nat.mod_eq_of_lt hfit
    refine ⟨some ⟨m.heap.length, 0⟩, _, concat_ok h1 h2 hfit hg, by simp, ?_⟩
    intro _
    refine ⟨⟨m.heap.length, 0⟩, rfl, List.getElem?_eq_none (Nat.le_refl _), ?_, ?_⟩
    · have : (m.heap ++ [as ++ bs ++ [0]])[m.heap.length]? = some (as ++ bs ++ [0]) := by
        rw [List.getElem?_append_right (Nat.le_refl _)]
        simp
      simp only [Heap.blockSize, this, hsz]
      simp
      omega
    · simp [hsz]

/-- C4 at `concat("foo", "bar")`: with an allocator that refuses the call returns `NULL`,
with one that grants it returns the new object 2. -/
theorem concat_null_iff_alloc_fails_witness :
    (mem0.heap.cstr ⟨0, 0⟩ = some foo ∧ mem0.heap.cstr ⟨1, 0⟩ = some bar ∧
      foo.length + bar.length + 1 < 2 ^ 64) ∧
    (∃ res m', concat 64 noAlloc mem0 ⟨0, 0⟩ ⟨1, 0⟩ = some (res, m') ∧
      (res = none ↔ noAlloc.grant (allocSize 64 foo.length bar.length) = false) ∧
      (noAlloc.grant (allocSize 64 foo.length bar.length) = true →
        ∃ r, res = some r ∧ mem0.heap[r.blk]? = none ∧
          m'.heap.blockSize r.blk = allocSize 64 foo.length bar.length ∧
          Event.alloc (allocSize 64 foo.length bar.length) (some r) ∈ m'.log)) ∧
    (∃ res m', concat 64 okAlloc mem0 ⟨0, 0⟩ ⟨1, 0⟩ = some (res, m') ∧
      (res = none ↔ okAlloc.grant (allocSize 64 foo.length bar.length) = false) ∧
      (okAlloc.grant (allocSize 64 foo.length bar.length) = true →
        ∃ r, res = some r ∧ mem0.heap[r.blk]? = none ∧
          m'.heap.blockSize r.blk = allocSize 64 foo.length bar.length ∧
          Event.alloc (allocSize 64 foo.length bar.length) (some r) ∈ m'.log)) :=
  ⟨⟨by decide, by decide, by decide⟩,
    concat_null_iff_alloc_fails 64 noAlloc mem0 ⟨0, 0⟩ ⟨1, 0⟩ foo bar (by decide) (by decide)
      (by decide),
    concat_null_iff_alloc_fails 64 okAlloc mem0 ⟨0, 0⟩ ⟨1, 0⟩ foo bar (by decide) (by decide)
      (by decide)⟩

/-- C5: failure is atomic.  When the allocator refuses the request, `concat` returns
`NULL`, the contents of memory are exactly what they were before the call, and the call
has performed no store at all. -/
theorem concat_failure_atomic (w : Nat) (al : Allocator) (m : Mem) (s1 s2 : Ptr)
    (as bs : List Byte)
    (h1 : m.heap.cstr s1 = some as) (h2 : m.heap.cstr s2 = some bs)
    (hg : al.grant (allocSize w as.length bs.length) = false) :
    ∃ m' evs, concat w al m s1 s2 = some (none, m') ∧ m'.heap = m.heap ∧
      m'.log = m.log ++ evs ∧ ∀ p v, Event.write p v ∉ evs := by
  refine ⟨_, scanEvents s1 (as.length + 1) ++ scanEvents s2 (bs.length + 1)
    ++ [Event.alloc (allocSize w as.length bs.length) none], concat_null h1 h2 hg, rfl,
    by simp [List.append_assoc], ?_⟩
  intro p v hm
  simp only [List.mem_append, List.mem_singleton] at hm
  rcases hm with (hm | hm) | hm
  · obtain ⟨i, -, hi⟩ := mem_scanEvents hm
    cases hi
  · obtain ⟨i, -, hi⟩ := mem_scanEvents hm
    cases hi
  · cases hm

/-- C5 at `concat("foo", "bar")` with an allocator that refuses. -/
theorem concat_failure_atomic_witness :
    (mem0.heap.cstr ⟨0, 0⟩ = some foo ∧ mem0.heap.cstr ⟨1, 0⟩ = some bar ∧
      noAlloc.grant (allocSize 64 foo.length bar.length) = false) ∧
    ∃ m' evs, concat 64 noAlloc mem0 ⟨0, 0⟩ ⟨1, 0⟩ = some (none, m') ∧ m'.heap = mem0.heap ∧
      m'.log = mem0.log ++ evs ∧ ∀ p v, Event.write p v ∉ evs :=
  ⟨⟨by decide, by decide, by decide⟩,
    concat_failure_atomic 64 noAlloc mem0 ⟨0, 0⟩ ⟨1, 0⟩ foo bar (by decide) (by decide)
      (by decide)⟩

theorem alloc_not_mem_scanEvents (n : Nat) (r : Option Ptr) (p : Ptr) (k : Nat) :
    Event.alloc n r ∉ scanEvents p k := by
  intro h
  obtain ⟨i, -, hi⟩ := mem_scanEvents h
  cases hi

theorem alloc_not_mem_copyEvents (n : Nat) (r : Option Ptr) (d s : Ptr) (xs : List Byte) :
    Event.alloc n r ∉ copyEvents d s xs := by
  intro h
  obtain ⟨i, -, hi | ⟨v, -, hi⟩⟩ := mem_copyEvents h
  · cases hi
  · cases hi

theorem filter_isAlloc_scanEvents (p : Ptr) (n : Nat) :
    (scanEvents p n).filter Event.isAlloc = [] := by
  induction n generalizing p with
  | zero => rfl
  | succ n ih => simp [scanEvents, Event.isAlloc, ih]

theorem filter_isAlloc_copyEvents (d s : Ptr) (xs : List Byte) :
    (copyEvents d s xs).filter Event.isAlloc = [] := by
  induction xs generalizing d s with
  | nil => rfl
  | cons x xs ih => simp [copyEvents, Event.isAlloc, ih]

/-- C6, as stated, fails.  With a 32-bit `size_t`, let `s` be a string of `2 ^ 31` bytes
(in an object of `2 ^ 31 + 1` bytes).  The call `concat(s, s)` asks the allocator for
`(2 ^ 31 + 2 ^ 31 + 1) mod 2 ^ 32 = 1` byte, not for `2 ^ 31 + 2 ^ 31 + 1`. -/
theorem concat_request_wraps :
    bigMem.heap.cstr ⟨0, 0⟩ = some (List.replicate (2 ^ 31) 1) ∧
    (List.replicate (2 ^ 31) 1 : List Byte).length = 2 ^ 31 ∧
    ∃ m', concat 32 noAlloc bigMem ⟨0, 0⟩ ⟨0, 0⟩ = some (none, m') ∧
      m'.log.getLast? = some (Event.alloc 1 none) ∧ 1 ≠ 2 ^ 31 + 2 ^ 31 + 1 := by
  have hc : bigMem.heap.cstr ⟨0, 0⟩ = some (List.replicate (2 ^ 31) 1) := cstr_replicate (2 ^ 31)
  have hl : (List.replicate (2 ^ 31) 1 : List Byte).length = 2 ^ 31 := List.length_replicate _ _
  have hsz : allocSize 32 (List.replicate (2 ^ 31) 1 : List Byte).length
      (List.replicate (2 ^ 31) 1 : List Byte).length = 1 := by
    rw [hl]
    decide
  have hk := concat_null (w := 32) hc hc (rfl : noAlloc.grant _ = false)
  rw [hsz] at hk
  exact ⟨hc, hl, _, hk, List.getLast?_concat _, by decide⟩

/-- C6, amended: whenever `as.length + bs.length + 1` is below `2 ^ w`, so that it is a
value of the `w`-bit `size_t`, `concat` makes exactly one request to the allocator and
its size is exactly `as.length + bs.length + 1`: the requests among the events of the
call, in order, are that single one. -/
theorem concat_request_exact (w : Nat) (al : Allocator) (m : Mem) (s1 s2 : Ptr)
    (as bs : List Byte)
    (h1 : m.heap.cstr s1 = some as) (h2 : m.heap.cstr s2 = some bs)
    (hfit : as.length + bs.length + 1 < 2 ^ w) :
    ∃ res m' evs, concat w al m s1 s2 = some (res, m') ∧ m'.log = m.log ++ evs ∧
      evs.filter Event.isAlloc = [Event.alloc (as.length + bs.length + 1) res] ∧
      ∀ n r, Event.alloc n r ∈ evs ↔ (n = as.length + bs.length + 1 ∧ r = res) := by
  have hsz : allocSize w as.length bs.length = as.length + bs.length + 1 :=
    Nat.mod_eq_of_lt hfit
  cases hg : al.grant (allocSize w as.length bs.length) with
  | false =>
    refine ⟨none, _, scanEvents s1 (as.length + 1) ++ scanEvents s2 (bs.length + 1)
      ++ [Event.alloc (allocSize w as.length bs.length) none], concat_null h1 h2 hg,
      by simp [List.append_assoc], ?_, ?_⟩
    · simp [List.filter_append, filter_isAlloc_scanEvents, Event.isAlloc, hsz]
    intro n r
    simp only [List.mem_append, List.mem_singleton, alloc_not_mem_scanEvents, false_or,
      Event.alloc.injEq, hsz]
  | true =>
    refine ⟨some ⟨m.heap.length, 0⟩, _,
      scanEvents s1 (as.length + 1) ++ scanEvents s2 (bs.length + 1)
        ++ [Event.alloc (as.length + bs.length + 1) (some ⟨m.heap.length, 0⟩)]
        ++ copyEvents ⟨m.heap.length, 0⟩ s1 (as ++ [0])
        ++ scanEvents ⟨m.heap.length, 0⟩ (as.length + 1)
        ++ copyEvents ⟨m.heap.length, as.length⟩ s2 (bs ++ [0]),
      concat_ok h1 h2 hfit hg, by simp [List.append_assoc], ?_, ?_⟩
    · simp [List.filter_append, filter_isAlloc_scanEvents, filter_isAlloc_copyEvents,
        Event.isAlloc]
    intro n r
    simp only [List.mem_append, List.mem_singleton, alloc_not_mem_scanEvents,
      alloc_not_mem_copyEvents, false_or, or_false, Event.alloc.injEq]

/-- C6 amended, at `concat("foo", "bar")` on a 64-bit target: the request is for 7
bytes. -/
theorem concat_request_exact_witness :
    (mem0.heap.cstr ⟨0, 0⟩ = some foo ∧ mem0.heap.cstr ⟨1, 0⟩ = some bar ∧
      foo.length + bar.length + 1 < 2 ^ 64) ∧
    ∃ res m' evs, concat 64 okAlloc mem0 ⟨0, 0⟩ ⟨1, 0⟩ = some (res, m') ∧
      m'.log = mem0.log ++ evs ∧ evs.filter Event.isAlloc = [Event.alloc 7 res] ∧
      ∀ n r, Event.alloc n r ∈ evs ↔ (n = 7 ∧ r = res) :=
  ⟨⟨by decide, by decide, by decide⟩,
    concat_request_exact 64 okAlloc mem0 ⟨0, 0⟩ ⟨1, 0⟩ foo bar (by decide) (by decide)
      (by decide)⟩

/-- C7, as stated, fails.  With a 32-bit `size_t` and `s` a string of `2 ^ 31` bytes,
`concat(s, s)` with the request granted does not complete a run in which only cells of
the new buffer are written: the copy of `s` leaves the one-byte buffer. -/
theorem concat_preserves_wrap_fails :
    bigMem.heap.cstr ⟨0, 0⟩ = some (List.replicate (2 ^ 31) 1) ∧
    okAlloc.grant (allocSize 32 (2 ^ 31) (2 ^ 31)) = true ∧
    ¬ ∃ r m' evs, concat 32 okAlloc bigMem ⟨0, 0⟩ ⟨0, 0⟩ = some (some r, m') ∧
      m'.log = bigMem.log ++ evs ∧ ∀ p v, Event.write p v ∈ evs → p.blk = r.blk := by
  refine ⟨cstr_replicate (2 ^ 31), rfl, ?_⟩
  rintro ⟨r, m', evs, h, -⟩
  rw [concat_overrun] at h
  cases h

/-- C7, amended: on the success path, when `as.length + bs.length + 1` is a `size_t`
value, `concat` does not change its inputs.  The buffer is an object
that did not exist before the call; every object that existed (those holding `s1` and
`s2` among them, terminators and all) has the same bytes after the call as before; the
inputs still read as `as` and `bs`; and every store of the call goes to the new
buffer. -/
theorem concat_preserves_inputs (w : Nat) (al : Allocator) (m : Mem) (s1 s2 : Ptr)
    (as bs : List Byte)
    (h1 : m.heap.cstr s1 = some as) (h2 : m.heap.cstr s2 = some bs)
    (hfit : as.length + bs.length + 1 < 2 ^ w)
    (hg : al.grant (allocSize w as.length bs.length) = true) :
    ∃ r m' evs, concat w al m s1 s2 = some (some r, m') ∧ m.heap[r.blk]? = none ∧
      (∀ k, k < m.heap.length → m'.heap[k]? = m.heap[k]?) ∧
      m'.heap.cstr s1 = some as ∧ m'.heap.cstr s2 = some bs ∧
      m'.log = m.log ++ evs ∧ ∀ p v, Event.write p v ∈ evs → p.blk = r.blk := by
  refine ⟨⟨m.heap.length, 0⟩, _,
    scanEvents s1 (as.length + 1) ++ scanEvents s2 (bs.length + 1)
      ++ [Event.alloc (as.length + bs.length + 1) (some ⟨m.heap.length, 0⟩)]
      ++ copyEvents ⟨m.heap.length, 0⟩ s1 (as ++ [0])
      ++ scanEvents ⟨m.heap.length, 0⟩ (as.length + 1)
      ++ copyEvents ⟨m.heap.length, as.length⟩ s2 (bs ++ [0]),
    concat_ok h1 h2 hfit hg, List.getElem?_eq_none (Nat.le_refl _), ?_,
    (cstr_append_block _ h1).1, (cstr_append_block _ h2).1, by simp [List.append_assoc], ?_⟩
  · intro k hk
    exact List.getElem?_append_left hk
  · intro p v hm
    simp only [List.mem_append, List.mem_singleton] at hm
    rcases hm with ((((hm | hm) | hm) | hm) | hm) | hm
    · obtain ⟨i, -, hi⟩ := mem_scanEvents hm
      cases hi
    · obtain ⟨i, -, hi⟩ := mem_scanEvents hm
      cases hi
    · cases hm
    · obtain ⟨i, -, hi | ⟨x, -, hi⟩⟩ := mem_copyEvents hm
      · cases hi
      · cases hi
        rfl
    · obtain ⟨i, -, hi⟩ := mem_scanEvents hm
      cases hi
    · obtain ⟨i, -, hi | ⟨x, -, hi⟩⟩ := mem_copyEvents hm
      · cases hi
      · cases hi
        rfl

/-- C7 at `concat("foo", "bar")`. -/
theorem concat_preserves_inputs_witness :
    (mem0.heap.cstr ⟨0, 0⟩ = some foo ∧ mem0.heap.cstr ⟨1, 0⟩ = some bar) ∧
    ∃ r m' evs, concat 64 okAlloc mem0 ⟨0, 0⟩ ⟨1, 0⟩ = some (some r, m') ∧
      mem0.heap[r.blk]? = none ∧
      (∀ k, k < mem0.heap.length → m'.heap[k]? = mem0.heap[k]?) ∧
      m'.heap.cstr ⟨0, 0⟩ = some foo ∧ m'.heap.cstr ⟨1, 0⟩ = some bar ∧
      m'.log = mem0.log ++ evs ∧ ∀ p v, Event.write p v ∈ evs → p.blk = r.blk :=
  ⟨⟨by decide, by decide⟩,
    concat_preserves_inputs 64 okAlloc mem0 ⟨0, 0⟩ ⟨1, 0⟩ foo bar (by decide) (by decide)
      (by decide) (by decide)⟩

/-- C8: non-aliasing.  Whenever `concat` on valid inputs returns a non-null pointer, that
pointer is the start of an object other than the ones `s1` and `s2` point into, and that
object did not exist when the call was made. -/
theorem concat_result_fresh (w : Nat) (al : Allocator) (m m' : Mem) (s1 s2 r : Ptr)
    (as bs : List Byte)
    (h1 : m.heap.cstr s1 = some as) (h2 : m.heap.cstr s2 = some bs)
    (hret : concat w al m s1 s2 = some (some r, m')) :
    r.blk ≠ s1.blk ∧ r.blk ≠ s2.blk ∧ r.off = 0 ∧ m.heap[r.blk]? = none := by
  obtain ⟨-, lt1, -⟩ := cstr_append_block [] h1
  obtain ⟨-, lt2, -⟩ := cstr_append_block [] h2
  have hr : r = ⟨m.heap.length, 0⟩ := by
    unfold concat at hret
    rw [strlen_spec m s1 h1] at hret
    simp only at hret
    rw [strlen_spec ⟨m.heap, m.log ++ scanEvents s1 (as.length + 1)⟩ s2 h2] at hret
    simp only [malloc] at hret
    split at hret
    · cases hret
    · rename_i res m3 heq
      split at heq
      · simp only [Prod.mk.injEq, Option.some.injEq] at heq
        split at hret
        · cases hret
        · split at hret
          · cases hret
          · simp only [Option.some.injEq, Prod.mk.injEq] at hret
            rw [← hret.1, ← heq.1]
      · simp at heq
  subst hr
  exact ⟨by simp; omega, by simp; omega, rfl, List.getElem?_eq_none (Nat.le_refl _)⟩

/-- C8 at `concat("foo", "bar")`: the result is object 2, the inputs are objects 0
and 1. -/
theorem concat_result_fresh_witness :
    (mem0.heap.cstr ⟨0, 0⟩ = some foo ∧ mem0.heap.cstr ⟨1, 0⟩ = some bar ∧
      concat 64 okAlloc mem0 ⟨0, 0⟩ ⟨1, 0⟩ = some (some ⟨2, 0⟩, mem0After)) ∧
    ((2 : Nat) ≠ 0 ∧ (2 : Nat) ≠ 1 ∧ (0 : Nat) = 0 ∧ mem0.heap[2]? = none) :=
  ⟨⟨by decide, by decide, by decide⟩,
    concat_result_fresh 64 okAlloc mem0 mem0After ⟨0, 0⟩ ⟨1, 0⟩ ⟨2, 0⟩ foo bar (by decide)
      (by decide) (by decide)⟩

/-- C9: the `strcpy`-then-`strcat` sequence of the code refines the offset algorithm of
the specification.  For strings `as` at `s1` and `bs` at `s2` and a destination `r` in
another object with room for `as.length + bs.length + 1` bytes, `strcpy(r, s1)` followed
by `strcat(r, s2)` and the algorithm of the specification both succeed and leave the same
memory contents; after the `strcpy`, the scan of `strcat` for the end of the destination
string stops at offset `as.length`. -/
theorem strcpy_strcat_refines_specFill (m : Mem) (r s1 s2 : Ptr) (as bs db : List Byte)
    (h1 : m.heap.cstr s1 = some as) (h2 : m.heap.cstr s2 = some bs)
    (hdb : m.heap[r.blk]? = some db) (hn1 : r.blk ≠ s1.blk) (hn2 : r.blk ≠ s2.blk)
    (hroom : r.off + as.length + bs.length + 1 ≤ db.length) :
    ∃ m1 m1' m2 m3, strcpy m r s1 = some m1 ∧ strlen m1 r = some (as.length, m1') ∧
      strcat m1 r s2 = some m2 ∧ specFill m r s1 s2 as.length bs.length = some m3 ∧
      m2.heap = m3.heap ∧
      m2.heap = m.heap.set r.blk (writeAt db r.off (as ++ bs ++ [0])) := by
  obtain ⟨sb1, tl1, hsb1, hd1, -, -⟩ := cstr_eq_some h1
  obtain ⟨sb2, tl2, hsb2, hd2, -, -⟩ := cstr_eq_some h2
  obtain ⟨e1, c1, e2⟩ := strcpy_then_strcat m r s1 s2 as bs db h1 h2 hdb hn1 hn2 hroom
  -- the specification: two copies and a terminator
  have f1 := copyBytes_spec as m r s1 sb1 db (0 :: tl1) hsb1 hdb hn1 hd1 (by omega)
  have hY : (m.heap.set r.blk (writeAt db r.off as))[r.blk]? = some (writeAt db r.off as) :=
    getElem?_set_same _ hdb
  have f2 : ∀ (lg : List Event), ∃ lg',
      copyBytes bs.length ⟨m.heap.set r.blk (writeAt db r.off as), lg⟩ (r.add as.length) s2 =
        some ⟨m.heap.set r.blk (writeAt (writeAt db r.off as) (r.off + as.length) bs), lg'⟩ := by
    intro lg
    refine ⟨lg ++ copyEvents (r.add as.length) s2 bs, ?_⟩
    rw [copyBytes_spec bs ⟨m.heap.set r.blk (writeAt db r.off as), lg⟩ (r.add as.length) s2 sb2
      (writeAt db r.off as) (0 :: tl2)
      (by simpa [List.getElem?_set_ne hn2] using hsb2)
      (by simpa [Ptr.add] using hY) (by simpa [Ptr.add] using hn2) hd2
      (by simp only [Ptr.add, writeAt_length]; omega)]
    simp only [Ptr.add, List.set_set]
  have f3 : ∀ (lg : List Event), ∃ lg',
      Mem.store ⟨m.heap.set r.blk (writeAt (writeAt db r.off as) (r.off + as.length) bs), lg⟩
        (r.add (as.length + bs.length)) 0 =
        some ⟨m.heap.set r.blk
          ((writeAt (writeAt db r.off as) (r.off + as.length) bs).set
            (r.off + as.length + bs.length) 0), lg'⟩ := by
    intro lg
    refine ⟨lg ++ [Event.write (r.add (as.length + bs.length)) 0], ?_⟩
    have hZ := getElem?_set_same
      (writeAt (writeAt db r.off as) (r.off + as.length) bs) hdb
    have hlt : r.off + (as.length + bs.length) <
        (writeAt (writeAt db r.off as) (r.off + as.length) bs).length := by
      rw [writeAt_length, writeAt_length]
      omega
    simp only [Mem.store, Ptr.add, hZ, hlt, if_true, List.set_set, Nat.add_assoc]
  obtain ⟨lg3, f2'⟩ := f2 (m.log ++ copyEvents r s1 as)
  obtain ⟨lg4, f3'⟩ := f3 lg3
  refine ⟨_, _, _,
    ⟨m.heap.set r.blk ((writeAt (writeAt db r.off as) (r.off + as.length) bs).set
      (r.off + as.length + bs.length) 0), lg4⟩,
    e1, strlen_spec _ r c1, e2, ?_, ?_, rfl⟩
  · unfold specFill
    rw [f1]
    simp only
    rw [f2']
    simp only
    exact f3'
  · show m.heap.set r.blk (writeAt db r.off (as ++ bs ++ [0])) = m.heap.set r.blk _
    rw [← writeAt_code_eq, writeAt_code_eq_spec]

/-- C9 at "foo" and "bar" with a 7-byte destination: both ways of filling it succeed
and agree. -/
theorem strcpy_strcat_refines_specFill_witness :
    (mem3.heap.cstr ⟨0, 0⟩ = some foo ∧ mem3.heap.cstr ⟨1, 0⟩ = some bar ∧
      mem3.heap[2]? = some [170, 170, 170, 170, 170, 170, 170]) ∧
    ∃ m1 m1' m2 m3, strcpy mem3 ⟨2, 0⟩ ⟨0, 0⟩ = some m1 ∧ strlen m1 ⟨2, 0⟩ = some (3, m1') ∧
      strcat m1 ⟨2, 0⟩ ⟨1, 0⟩ = some m2 ∧ specFill mem3 ⟨2, 0⟩ ⟨0, 0⟩ ⟨1, 0⟩ 3 3 = some m3 ∧
      m2.heap = m3.heap ∧
      m2.heap = mem3.heap.set 2 [102, 111, 111, 98, 97, 114, 0] :=
  ⟨⟨by decide, by decide, by decide⟩,
    strcpy_strcat_refines_specFill mem3 ⟨2, 0⟩ ⟨0, 0⟩ ⟨1, 0⟩ foo bar
      [170, 170, 170, 170, 170, 170, 170] (by decide) (by decide) (by decide) (by decide)
      (by decide) (by decide)⟩

/-- C10: all accesses to the buffer stay in bounds.  Given a destination object of exactly
`as.length + bs.length + 1` bytes, `strcpy(r, s1)` and `strcat(r, s2)` both run to
completion without any out-of-bounds access; every store they make is to the buffer at an
offset below `as.length + bs.length + 1`; every load of `strcat` is either from the buffer
at such an offset or from the string at `s2`, terminator included; and the terminator is
stored at offset `as.length + bs.length`, the largest offset written. -/
theorem strcpy_strcat_in_bounds (m : Mem) (k : Nat) (s1 s2 : Ptr) (as bs db : List Byte)
    (h1 : m.heap.cstr s1 = some as) (h2 : m.heap.cstr s2 = some bs)
    (hdb : m.heap[k]? = some db) (hsize : db.length = as.length + bs.length + 1)
    (hn1 : k ≠ s1.blk) (hn2 : k ≠ s2.blk) :
    ∃ m1 m2 ev1 ev2, strcpy m ⟨k, 0⟩ s1 = some m1 ∧ strcat m1 ⟨k, 0⟩ s2 = some m2 ∧
      m1.log = m.log ++ ev1 ∧ m2.log = m1.log ++ ev2 ∧
      (∀ p v, Event.write p v ∈ ev1 → p.blk = k ∧ p.off < as.length + bs.length + 1) ∧
      (∀ p v, Event.write p v ∈ ev2 → p.blk = k ∧ p.off < as.length + bs.length + 1) ∧
      (∀ p, Event.read p ∈ ev2 →
        (p.blk = k ∧ p.off < as.length + bs.length + 1) ∨
          ∃ i, i < bs.length + 1 ∧ p = s2.add i) ∧
      Event.write ⟨k, as.length + bs.length⟩ 0 ∈ ev2 := by
  obtain ⟨e1, -, e2⟩ := strcpy_then_strcat m ⟨k, 0⟩ s1 s2 as bs db h1 h2 hdb hn1 hn2
    (by simp only [hsize]; omega)
  refine ⟨_, _, copyEvents ⟨k, 0⟩ s1 (as ++ [0]),
    scanEvents ⟨k, 0⟩ (as.length + 1) ++ copyEvents ⟨k, as.length⟩ s2 (bs ++ [0]),
    e1, e2, rfl, by simp [Ptr.add, List.append_assoc], ?_, ?_, ?_, ?_⟩
  · intro p v hm
    obtain ⟨i, hi, he | ⟨x, -, he⟩⟩ := mem_copyEvents hm
    · cases he
    · cases he
      simp only [List.length_append, List.length_singleton] at hi
      exact ⟨rfl, by simp only [Ptr.add]; omega⟩
  · intro p v hm
    rcases List.mem_append.1 hm with hm | hm
    · obtain ⟨i, -, he⟩ := mem_scanEvents hm
      cases he
    · obtain ⟨i, hi, he | ⟨x, -, he⟩⟩ := mem_copyEvents hm
      · cases he
      · cases he
        simp only [List.length_append, List.length_singleton] at hi
        exact ⟨rfl, by simp only [Ptr.add]; omega⟩
  · intro p hm
    rcases List.mem_append.1 hm with hm | hm
    · obtain ⟨i, hi, he⟩ := mem_scanEvents hm
      cases he
      exact Or.inl ⟨rfl, by simp only [Ptr.add]; omega⟩
    · obtain ⟨i, hi, he | ⟨x, -, he⟩⟩ := mem_copyEvents hm
      · cases he
        simp only [List.length_append, List.length_singleton] at hi
        exact Or.inr ⟨i, hi, rfl⟩
      · cases he
  · apply List.mem_append_right
    have := copyEvents_last ⟨k, as.length⟩ s2 bs 0
    simpa [Ptr.add] using this

/-- C10 at "foo" and "bar" with a 7-byte destination. -/
theorem strcpy_strcat_in_bounds_witness :
    (mem3.heap.cstr ⟨0, 0⟩ = some foo ∧ mem3.heap.cstr ⟨1, 0⟩ = some bar ∧
      mem3.heap[2]? = some [170, 170, 170, 170, 170, 170, 170]) ∧
    ∃ m1 m2 ev1 ev2, strcpy mem3 ⟨2, 0⟩ ⟨0, 0⟩ = some m1 ∧ strcat m1 ⟨2, 0⟩ ⟨1, 0⟩ = some m2 ∧
      m1.log = mem3.log ++ ev1 ∧ m2.log = m1.log ++ ev2 ∧
      (∀ p v, Event.write p v ∈ ev1 → p.blk = 2 ∧ p.off < 7) ∧
      (∀ p v, Event.write p v ∈ ev2 → p.blk = 2 ∧ p.off < 7) ∧
      (∀ p, Event.read p ∈ ev2 →
        (p.blk = 2 ∧ p.off < 7) ∨ ∃ i, i < 4 ∧ p = Ptr.add ⟨1, 0⟩ i) ∧
      Event.write ⟨2, 6⟩ 0 ∈ ev2 :=
  ⟨⟨by decide, by decide, by decide⟩,
    strcpy_strcat_in_bounds mem3 2 ⟨0, 0⟩ ⟨1, 0⟩ foo bar [170, 170, 170, 170, 170, 170, 170]
      (by decide) (by decide) (by decide) (by decide) (by decide) (by decide)⟩

/-! ## Lemmas for chained calls and for iteration bounds -/

theorem cstr_nonzero {h : Heap} {p : Ptr} {bs : List Byte} (hs : h.cstr p = some bs) :
    ∀ c ∈ bs, c ≠ 0 := by
  obtain ⟨-, -, -, -, hnz, -⟩ := cstr_eq_some hs
  exact hnz

theorem cstr_new_block (h : Heap) (xs : List Byte) (hnz : ∀ c ∈ xs, c ≠ 0) :
    Heap.cstr (h ++ [xs ++ [0]]) ⟨h.length, 0⟩ = some xs := by
  have hnew : (h ++ [xs ++ [0]])[h.length]? = some (xs ++ [0]) := by
    rw [List.getElem?_append_right (Nat.le_refl _)]
    simp
  exact cstr_of_block [] hnew (by simp) hnz

theorem concat_ok_heap {w : Nat} {al : Allocator} {m : Mem} {s1 s2 : Ptr} {as bs : List Byte}
    (h1 : m.heap.cstr s1 = some as) (h2 : m.heap.cstr s2 = some bs)
    (hfit : as.length + bs.length + 1 < 2 ^ w)
    (hg : al.grant (allocSize w as.length bs.length) = true) :
    ∃ lg, concat w al m s1 s2 =
        some (some ⟨m.heap.length, 0⟩, ⟨m.heap ++ [as ++ bs ++ [0]], lg⟩) ∧
      Heap.cstr (m.heap ++ [as ++ bs ++ [0]]) ⟨m.heap.length, 0⟩ = some (as ++ bs) ∧
      (m.heap ++ [as ++ bs ++ [0]])[m.heap.length]? = some (as ++ bs ++ [0]) := by
  refine ⟨_, concat_ok h1 h2 hfit hg, ?_, ?_⟩
  · apply cstr_new_block
    intro c hc
    rcases List.mem_append.1 hc with h | h
    · exact cstr_nonzero h1 c h
    · exact cstr_nonzero h2 c h
  · rw [List.getElem?_append_right (Nat.le_refl _)]
    simp

theorem scanEvents_length (p : Ptr) (n : Nat) : (scanEvents p n).length = n := by
  induction n generalizing p with
  | zero => rfl
  | succ n ih => simp [scanEvents, ih]

theorem copyEvents_length (d s : Ptr) (xs : List Byte) :
    (copyEvents d s xs).length = 2 * xs.length := by
  induction xs generalizing d s with
  | nil => rfl
  | cons x xs ih =>
    simp only [copyEvents, List.length_cons, ih]
    omega

theorem strlenLoop_of_cstr (f : Nat) (m : Mem) (s : Ptr) {bs : List Byte}
    (hs : m.heap.cstr s = some bs) (hf : bs.length < f) :
    strlenLoop f m s 0 = strlen m s := by
  obtain ⟨b, tl, hb, hd, hnz, -⟩ := cstr_eq_some hs
  rw [strlen_spec m s hs,
    strlenLoop_spec bs f m s 0 b tl hb (by simpa using hd) hnz hf]
  simp [Ptr.add]

theorem strcpyLoop_of_cstr (f : Nat) (m : Mem) (d s : Ptr) (bs db : List Byte)
    (hs : m.heap.cstr s = some bs) (hdb : m.heap[d.blk]? = some db) (hne : d.blk ≠ s.blk)
    (hroom : d.off + bs.length + 1 ≤ db.length) (hf : bs.length < f) :
    strcpyLoop f m d s = strcpy m d s := by
  obtain ⟨sb, tl, hsb, hd, hnz, -⟩ := cstr_eq_some hs
  rw [strcpy_spec_writeAt m d s bs db hs hdb hne hroom,
    strcpyLoop_spec bs f m d s sb db tl hsb hdb hne hd hnz hroom hf]

theorem concatFuel_eq_concat {w : Nat} {al : Allocator} {m : Mem} {s1 s2 : Ptr}
    {as bs : List Byte} (f : Nat)
    (h1 : m.heap.cstr s1 = some as) (h2 : m.heap.cstr s2 = some bs)
    (hfit : as.length + bs.length + 1 < 2 ^ w) (hf1 : as.length < f) (hf2 : bs.length < f) :
    concatFuel f w al m s1 s2 = concat w al m s1 s2 := by
  obtain ⟨-, -, -, -, hnz1, -⟩ := cstr_eq_some h1
  have hsz : allocSize w as.length bs.length = as.length + bs.length + 1 :=
    Nat.mod_eq_of_lt hfit
  let junk : List Byte := (List.range (as.length + bs.length + 1)).map al.fill
  have hjl : junk.length = as.length + bs.length + 1 := by simp [junk]
  obtain ⟨c1, lt1, -⟩ := cstr_append_block junk h1
  have hnew : ∀ (x : List Byte), (m.heap ++ [x])[m.heap.length]? = some x := by
    intro x
    rw [List.getElem?_append_right (Nat.le_refl _)]
    simp
  have hset : ∀ (x y : List Byte), (m.heap ++ [x]).set m.heap.length y = m.heap ++ [y] := by
    intro x y
    rw [List.set_append_right _ _ (Nat.le_refl _)]
    simp
  let db1 : List Byte := as ++ [0] ++ junk.drop (as.length + 1)
  have hdb1 : db1.length = as.length + bs.length + 1 := by
    simp [db1, hjl]; omega
  -- the copy of `s1`
  have hcpyF : ∀ (lg : List Event),
      strcpyLoop f ⟨m.heap ++ [junk], lg⟩ ⟨m.heap.length, 0⟩ s1 =
        strcpy ⟨m.heap ++ [junk], lg⟩ ⟨m.heap.length, 0⟩ s1 := by
    intro lg
    exact strcpyLoop_of_cstr f ⟨m.heap ++ [junk], lg⟩ ⟨m.heap.length, 0⟩ s1 as junk c1
      (hnew junk) (by simp; omega) (by simp [hjl]) hf1
  have hcpy : ∀ (lg : List Event),
      strcpy ⟨m.heap ++ [junk], lg⟩ ⟨m.heap.length, 0⟩ s1 =
        some ⟨m.heap ++ [db1], lg ++ copyEvents ⟨m.heap.length, 0⟩ s1 (as ++ [0])⟩ := by
    intro lg
    have := strcpy_spec ⟨m.heap ++ [junk], lg⟩ ⟨m.heap.length, 0⟩ s1 as junk c1 (hnew junk)
      (by simp; omega) (by simp [hjl])
    rw [this]
    simp [hset, db1]
  -- the scan of the result and the copy of `s2`
  have c3 : (m.heap ++ [db1]).cstr ⟨m.heap.length, 0⟩ = some as :=
    cstr_of_block (junk.drop (as.length + 1)) (hnew db1) (by simp [db1]) hnz1
  obtain ⟨c4, lt4, -⟩ := cstr_append_block db1 h2
  have hscanF : ∀ (lg : List Event),
      strlenLoop f ⟨m.heap ++ [db1], lg⟩ ⟨m.heap.length, 0⟩ 0 =
        some (as.length,
          ⟨m.heap ++ [db1], lg ++ scanEvents ⟨m.heap.length, 0⟩ (as.length + 1)⟩) := by
    intro lg
    rw [strlenLoop_of_cstr f ⟨m.heap ++ [db1], lg⟩ ⟨m.heap.length, 0⟩ c3 hf1,
      strlen_spec ⟨m.heap ++ [db1], lg⟩ ⟨m.heap.length, 0⟩ c3]
  have hscan : ∀ (lg : List Event),
      strlen ⟨m.heap ++ [db1], lg⟩ ⟨m.heap.length, 0⟩ =
        some (as.length,
          ⟨m.heap ++ [db1], lg ++ scanEvents ⟨m.heap.length, 0⟩ (as.length + 1)⟩) := by
    intro lg
    rw [strlen_spec ⟨m.heap ++ [db1], lg⟩ ⟨m.heap.length, 0⟩ c3]
  have hcpy2F : ∀ (lg : List Event),
      strcpyLoop f ⟨m.heap ++ [db1], lg⟩ (Ptr.add ⟨m.heap.length, 0⟩ as.length) s2 =
        strcpy ⟨m.heap ++ [db1], lg⟩ (Ptr.add ⟨m.heap.length, 0⟩ as.length) s2 := by
    intro lg
    exact strcpyLoop_of_cstr f ⟨m.heap ++ [db1], lg⟩ (Ptr.add ⟨m.heap.length, 0⟩ as.length) s2
      bs db1 c4 (hnew db1) (by simp [Ptr.add]; omega) (by simp [Ptr.add, hdb1]) hf2
  unfold concatFuel concat
  rw [strlenLoop_of_cstr f m s1 h1 hf1, strlen_spec m s1 h1]
  simp only
  rw [strlenLoop_of_cstr f ⟨m.heap, m.log ++ scanEvents s1 (as.length + 1)⟩ s2 h2 hf2,
    strlen_spec ⟨m.heap, m.log ++ scanEvents s1 (as.length + 1)⟩ s2 h2]
  simp only [malloc, hsz]
  cases hg : al.grant (as.length + bs.length + 1) with
  | false => simp
  | true =>
    simp only [if_true]
    rw [hcpyF, hcpy]
    simp only
    unfold strcat
    rw [hscanF, hscan]
    simp only
    rw [hcpy2F]

/-! ## The claims, continued -/

/-- C11, as stated, fails.  With a 32-bit `size_t`, take `a`, `b` and `c` all equal to a
string `s` of `2 ^ 31` bytes and an allocator that grants every request.  Already the
inner call `concat(a, b)` returns no string, so `concat(concat(a, b), c)` has no
content to compare. -/
theorem concat_assoc_wrap_fails :
    bigMem.heap.cstr ⟨0, 0⟩ = some (List.replicate (2 ^ 31) 1) ∧
    (∀ n, okAlloc.grant n = true) ∧
    ¬ ∃ ab m1 abc m2, concat 32 okAlloc bigMem ⟨0, 0⟩ ⟨0, 0⟩ = some (some ab, m1) ∧
      concat 32 okAlloc m1 ab ⟨0, 0⟩ = some (some abc, m2) ∧
      m2.heap.cstr abc =
        some (List.replicate (2 ^ 31) 1 ++ List.replicate (2 ^ 31) 1
          ++ List.replicate (2 ^ 31) 1) := by
  refine ⟨cstr_replicate (2 ^ 31), fun _ => rfl, ?_⟩
  rintro ⟨ab, m1, abc, m2, h, -⟩
  rw [concat_overrun] at h
  cases h

/-- C11, amended: `concat` is associative up to content.  For strings `as`, `bs`, `cs` at `a`, `b`,
`c` (whose combined size is a `size_t` value), when all four allocations are granted, the
intermediate results are again null-terminated strings (`as ++ bs` and `bs ++ cs`), and
`concat(concat(a, b), c)` and `concat(a, concat(b, c))` both read as `as ++ bs ++ cs`. -/
theorem concat_assoc (w : Nat) (al : Allocator) (m : Mem) (a b c : Ptr)
    (as bs cs : List Byte)
    (ha : m.heap.cstr a = some as) (hb : m.heap.cstr b = some bs)
    (hc : m.heap.cstr c = some cs)
    (hfit : as.length + bs.length + cs.length + 1 < 2 ^ w)
    (hg1 : al.grant (allocSize w as.length bs.length) = true)
    (hg2 : al.grant (allocSize w (as.length + bs.length) cs.length) = true)
    (hg3 : al.grant (allocSize w bs.length cs.length) = true)
    (hg4 : al.grant (allocSize w as.length (bs.length + cs.length)) = true) :
    ∃ ab m1 abc m2 bc m3 abc' m4,
      concat w al m a b = some (some ab, m1) ∧ concat w al m1 ab c = some (some abc, m2) ∧
      concat w al m b c = some (some bc, m3) ∧ concat w al m3 a bc = some (some abc', m4) ∧
      m1.heap.cstr ab = some (as ++ bs) ∧ m3.heap.cstr bc = some (bs ++ cs) ∧
      m2.heap.cstr abc = some (as ++ bs ++ cs) ∧ m4.heap.cstr abc' = some (as ++ bs ++ cs) ∧
      m2.heap.cstr abc = m4.heap.cstr abc' := by
  -- left: `concat(a, b)`, then with `c`
  obtain ⟨lg1, e1, c1, -⟩ := concat_ok_heap ha hb (by omega) hg1
  have hc1 := (cstr_append_block (as ++ bs ++ [0]) hc).1
  obtain ⟨lg2, e2, c2, -⟩ := concat_ok_heap (w := w) (m := ⟨m.heap ++ [as ++ bs ++ [0]], lg1⟩)
    c1 hc1 (by rw [List.length_append]; omega) (by rw [List.length_append]; exact hg2)
  -- right: `concat(b, c)`, then `a` with it
  obtain ⟨lg3, e3, c3, -⟩ := concat_ok_heap hb hc (by omega) hg3
  have ha3 := (cstr_append_block (bs ++ cs ++ [0]) ha).1
  obtain ⟨lg4, e4, c4, -⟩ := concat_ok_heap (w := w) (m := ⟨m.heap ++ [bs ++ cs ++ [0]], lg3⟩)
    ha3 c3 (by rw [List.length_append]; omega) (by rw [List.length_append]; exact hg4)
  have c4' : Heap.cstr (m.heap ++ [bs ++ cs ++ [0]] ++ [as ++ (bs ++ cs) ++ [0]])
      ⟨(m.heap ++ [bs ++ cs ++ [0]]).length, 0⟩ = some (as ++ bs ++ cs) := by
    rw [List.append_assoc as bs cs]
    exact c4
  exact ⟨_, _, _, _, _, _, _, _, e1, e2, e3, e4, c1, c3, c2, c4', c2.trans c4'.symm⟩

/-- C11 at "foo", "bar", "world!": both groupings give "foobarworld!". -/
theorem concat_assoc_witness :
    (mem4.heap.cstr ⟨0, 0⟩ = some foo ∧ mem4.heap.cstr ⟨1, 0⟩ = some bar ∧
      mem4.heap.cstr ⟨2, 0⟩ = some world) ∧
    ∃ ab m1 abc m2 bc m3 abc' m4,
      concat 64 okAlloc mem4 ⟨0, 0⟩ ⟨1, 0⟩ = some (some ab, m1) ∧
      concat 64 okAlloc m1 ab ⟨2, 0⟩ = some (some abc, m2) ∧
      concat 64 okAlloc mem4 ⟨1, 0⟩ ⟨2, 0⟩ = some (some bc, m3) ∧
      concat 64 okAlloc m3 ⟨0, 0⟩ bc = some (some abc', m4) ∧
      m1.heap.cstr ab = some [102, 111, 111, 98, 97, 114] ∧
      m3.heap.cstr bc = some [98, 97, 114, 119, 111, 114, 108, 100, 33] ∧
      m2.heap.cstr abc = some [102, 111, 111, 98, 97, 114, 119, 111, 114, 108, 100, 33] ∧
      m4.heap.cstr abc' = some [102, 111, 111, 98, 97, 114, 119, 111, 114, 108, 100, 33] ∧
      m2.heap.cstr abc = m4.heap.cstr abc' :=
  ⟨⟨by decide, by decide, by decide⟩,
    concat_assoc 64 okAlloc mem4 ⟨0, 0⟩ ⟨1, 0⟩ ⟨2, 0⟩ foo bar world (by decide) (by decide)
      (by decide) (by decide) (by decide) (by decide) (by decide) (by decide)⟩

/-- C12, as stated, fails.  With a 32-bit `size_t`, take two runs of `concat(s, s)`, both
inputs the same storage, a string of `2 ^ 31` bytes.  The inputs agree and both
allocations are granted, yet neither run returns contents. -/
theorem concat_depends_wrap_fails :
    bigMem.heap.cstr ⟨0, 0⟩ = some (List.replicate (2 ^ 31) 1) ∧
    okAlloc.grant (allocSize 32 (2 ^ 31) (2 ^ 31)) = true ∧
    ¬ ∃ r n r' n', concat 32 okAlloc bigMem ⟨0, 0⟩ ⟨0, 0⟩ = some (some r, n) ∧
      concat 32 okAlloc bigMem ⟨0, 0⟩ ⟨0, 0⟩ = some (some r', n') ∧
      n.heap.cstr r = n'.heap.cstr r' := by
  refine ⟨cstr_replicate (2 ^ 31), rfl, ?_⟩
  rintro ⟨r, n, r', n', h, -⟩
  rw [concat_overrun] at h
  cases h

/-- C12, amended: the result of `concat` depends only on the strings its inputs point to.  Take two
runs, in any two memories, with any two allocators, whose first inputs both read as `as`
and whose second inputs both read as `bs` (nothing is assumed about the bytes after the
terminators, and each run's two inputs may share storage).  When both allocations are
granted (and the size is a `size_t` value on each target), the two returned objects hold
the same bytes. -/
theorem concat_depends_on_strings (w w' : Nat) (al al' : Allocator) (m m' : Mem)
    (a b a' b' : Ptr) (as bs : List Byte)
    (ha : m.heap.cstr a = some as) (hb : m.heap.cstr b = some bs)
    (ha' : m'.heap.cstr a' = some as) (hb' : m'.heap.cstr b' = some bs)
    (hfit : as.length + bs.length + 1 < 2 ^ w) (hfit' : as.length + bs.length + 1 < 2 ^ w')
    (hg : al.grant (allocSize w as.length bs.length) = true)
    (hg' : al'.grant (allocSize w' as.length bs.length) = true) :
    ∃ r n r' n', concat w al m a b = some (some r, n) ∧
      concat w' al' m' a' b' = some (some r', n') ∧ r.off = 0 ∧ r'.off = 0 ∧
      n.heap[r.blk]? = some (as ++ bs ++ [0]) ∧ n.heap[r.blk]? = n'.heap[r'.blk]? ∧
      n.heap.cstr r = n'.heap.cstr r' := by
  obtain ⟨lg, e, c, g⟩ := concat_ok_heap ha hb hfit hg
  obtain ⟨lg', e', c', g'⟩ := concat_ok_heap ha' hb' hfit' hg'
  exact ⟨_, _, _, _, e, e', rfl, rfl, g, g.trans g'.symm, c.trans c'.symm⟩

/-- C12 at "foo" and "foo": once with both inputs the same pointer, on a 64-bit target,
and once with the inputs in two objects with other bytes around them, on a 32-bit target
with another allocator.  Both results are "foofoo". -/
theorem concat_depends_on_strings_witness :
    (mem2.heap.cstr ⟨0, 0⟩ = some foo ∧ mem5.heap.cstr ⟨0, 2⟩ = some foo ∧
      mem5.heap.cstr ⟨1, 0⟩ = some foo) ∧
    ∃ r n r' n', concat 64 okAlloc mem2 ⟨0, 0⟩ ⟨0, 0⟩ = some (some r, n) ∧
      concat 32 oneAlloc mem5 ⟨0, 2⟩ ⟨1, 0⟩ = some (some r', n') ∧ r.off = 0 ∧ r'.off = 0 ∧
      n.heap[r.blk]? = some [102, 111, 111, 102, 111, 111, 0] ∧
      n.heap[r.blk]? = n'.heap[r'.blk]? ∧ n.heap.cstr r = n'.heap.cstr r' :=
  ⟨⟨by decide, by decide, by decide⟩,
    concat_depends_on_strings 64 32 okAlloc oneAlloc mem2 mem5 ⟨0, 0⟩ ⟨0, 0⟩ ⟨0, 2⟩ ⟨1, 0⟩
      foo foo (by decide) (by decide) (by decide) (by decide) (by decide) (by decide)
      (by decide) (by decide)⟩

/-- C13, as stated, fails.  With a 32-bit `size_t` and `s` a string of `2 ^ 31` bytes,
both inputs of `concat(s, s)` contain a terminator, yet with the request granted the call
does not run to a result: the copy of `s` overruns the one-byte buffer, which is
undefined behaviour. -/
theorem concat_terminates_wrap_fails :
    bigMem.heap.cstr ⟨0, 0⟩ = some (List.replicate (2 ^ 31) 1) ∧
    concat 32 okAlloc bigMem ⟨0, 0⟩ ⟨0, 0⟩ = none ∧
    ¬ ∃ res m', concat 32 okAlloc bigMem ⟨0, 0⟩ ⟨0, 0⟩ = some (res, m') := by
  refine ⟨cstr_replicate (2 ^ 31), concat_overrun, ?_⟩
  rintro ⟨res, m', h⟩
  rw [concat_overrun] at h
  cases h

/-- C13, amended: `concat` terminates on null-terminated inputs.  For inputs that read as `as` and
`bs` (whose combined size is a `size_t` value) the call returns a result, whatever the
allocator answers; no loop of the call needs more iterations than the position of the
terminator it runs to allows, in that every iteration bound `f` above `as.length` and
`bs.length` gives that same result; and the call performs at most
`4 * as.length + 3 * bs.length + 8` loads, stores and requests. -/
theorem concat_terminates (w : Nat) (al : Allocator) (m : Mem) (s1 s2 : Ptr)
    (as bs : List Byte)
    (h1 : m.heap.cstr s1 = some as) (h2 : m.heap.cstr s2 = some bs)
    (hfit : as.length + bs.length + 1 < 2 ^ w) :
    ∃ res m', concat w al m s1 s2 = some (res, m') ∧
      (∀ f, as.length < f → bs.length < f → concatFuel f w al m s1 s2 = some (res, m')) ∧
      m'.log.length ≤ m.log.length + (4 * as.length + 3 * bs.length + 8) := by
  cases hg : al.grant (allocSize w as.length bs.length) with
  | false =>
    have hk := concat_null h1 h2 hg
    refine ⟨none, _, hk, ?_, ?_⟩
    · intro f hf1 hf2
      rw [concatFuel_eq_concat f h1 h2 hfit hf1 hf2]
      exact hk
    · simp only [List.length_append, scanEvents_length, List.length_singleton]
      omega
  | true =>
    have hk := concat_ok h1 h2 hfit hg
    refine ⟨some ⟨m.heap.length, 0⟩, _, hk, ?_, ?_⟩
    · intro f hf1 hf2
      rw [concatFuel_eq_concat f h1 h2 hfit hf1 hf2]
      exact hk
    · simp only [List.length_append, scanEvents_length, copyEvents_length,
        List.length_singleton]
      omega

/-- C13 at `concat("foo", "bar")`: the call returns, every iteration bound above 3 gives
the same result, and at most 29 events are logged; with the bound 3, which does not reach
the terminators, the scan gives up. -/
theorem concat_terminates_witness :
    (mem0.heap.cstr ⟨0, 0⟩ = some foo ∧ mem0.heap.cstr ⟨1, 0⟩ = some bar ∧
      concatFuel 3 64 okAlloc mem0 ⟨0, 0⟩ ⟨1, 0⟩ = none) ∧
    ∃ res m', concat 64 okAlloc mem0 ⟨0, 0⟩ ⟨1, 0⟩ = some (res, m') ∧
      (∀ f, 3 < f → 3 < f → concatFuel f 64 okAlloc mem0 ⟨0, 0⟩ ⟨1, 0⟩ = some (res, m')) ∧
      m'.log.length ≤ mem0.log.length + 29 :=
  ⟨⟨by decide, by decide, by decide⟩,
    concat_terminates 64 okAlloc mem0 ⟨0, 0⟩ ⟨1, 0⟩ foo bar (by decide) (by decide)
      (by decide)⟩

end HulkRuntime
